import Mathlib

/-!
Verification development for the lyrics-synchronization core of the
`noraemong` repository (`src/sync/sync_lyrics.py`).

The embedding below translates, from the Python source:
  * `LyricsProcessor.normalize_text`                       → `normalize_text`
  * `LyricsSynchronizer._align_text_with_timestamps`       → `align_text_with_timestamps`
  * `LyricsSynchronizer._find_multi_segment_match`         → `find_multi_segment_match`

Modelling choices:
  * Strings are lists of Unicode code points (`List ℕ`).  The Python standard
    library's Unicode facilities (`str.lower`, `str.split`, the regex classes
    `\w`/`\s`, and `unicodedata.normalize('NFKD', ·)`) are modelled by explicit
    per-code-point tables (`lowerCp`, `isSpaceCp`, `isWordCp`, `nfkdCp`).  The
    tables are exact on the ASCII range and on the specific non-ASCII code
    points evaluated in this development.
  * Python floats (times, thresholds, scores) are modelled as rationals `ℚ`;
    all arithmetic performed by the code on them (`+ 0.5`, `+ 3.0`, `/ 100.0`,
    comparisons, `min`, `max`) is exact.
  * The external `fuzzywuzzy` similarity metrics (`fuzz.ratio`,
    `fuzz.partial_ratio`, `fuzz.token_sort_ratio`) are third-party collaborators
    that return integers; the alignment code divides them by `100.0`.  They are
    parameters of the embedding (a `FuzzOracle`), exactly as the spec treats
    them ("independent, swappable scoring functions").
  * The Python mutable `used_segments : set` of indices is a `Finset ℕ`
    threaded through the per-line loop.
  * Besides the output `LyricSegment`, the per-line loop body also records
    instrumentation (`LineResult`): which transcription-segment indices the
    line consumed, whether it matched, the chosen match and its score.  The
    produced output list is the projection `LineResult.seg`.
-/

/-! ## Unicode code-point tables -/

/-- Code points matched by Python's `str.split()` / regex `\s` (whitespace).
Exact on ASCII; the listed non-ASCII entries are the Unicode whitespace
code points. -/
def isSpaceCp (c : ℕ) : Bool :=
  (9 ≤ c && c ≤ 13) || (28 ≤ c && c ≤ 31) || c == 32 || c == 0x85 || c == 0xA0 ||
  c == 0x1680 || (0x2000 ≤ c && c ≤ 0x200A) || c == 0x2028 || c == 0x2029 ||
  c == 0x202F || c == 0x205F || c == 0x3000

/-- Code points matched by Python's regex `\w` (alphanumeric or underscore).
Exact on ASCII.  Outside ASCII this is a table of the code points evaluated in
this development: U+00BD (VULGAR FRACTION ONE HALF) is numeric hence a word
character; U+2044 (FRACTION SLASH) is a math symbol hence not. -/
def isWordCp (c : ℕ) : Bool :=
  (48 ≤ c && c ≤ 57) || (65 ≤ c && c ≤ 90) || (97 ≤ c && c ≤ 122) || c == 95 ||
  c == 0xBD

/-- Python `str.lower`, per code point.  Exact on ASCII; the non-ASCII code
points used in this development (U+00BD, U+2044) have no case mapping. -/
def lowerCp (c : ℕ) : ℕ := if 65 ≤ c ∧ c ≤ 90 then c + 32 else c

/-- Unicode NFKD decomposition per code point
(`unicodedata.normalize('NFKD', ·)`).  ASCII code points are NFKD-stable; the
only non-ASCII code point with a nontrivial decomposition evaluated in this
development is U+00BD ½ → "1⁄2" (U+0031, U+2044, U+0032).  None of the code
points involved carry nonzero combining classes, so per-code-point
concatenation is the exact NFKD result. -/
def nfkdCp (c : ℕ) : List ℕ := if c = 0xBD then [0x31, 0x2044, 0x32] else [c]

/-! ## Whitespace splitting and joining (`' '.join(text.split())`) -/

/-- Helper for Python `str.split()` with no arguments: split on runs of
whitespace, discarding empty chunks.  `cur` is the word currently being read. -/
def splitWsAux : List ℕ → List ℕ → List (List ℕ)
  | [], cur => if cur.isEmpty then [] else [cur]
  | c :: cs, cur =>
      if isSpaceCp c then
        (if cur.isEmpty then splitWsAux cs [] else cur :: splitWsAux cs [])
      else splitWsAux cs (cur ++ [c])

/-- Python `text.split()` (no separator argument). -/
def pySplit (l : List ℕ) : List (List ℕ) := splitWsAux l []

/-- Python `' '.join(ws)`: words joined by a single space (code point 32). -/
def joinWords : List (List ℕ) → List ℕ
  | [] => []
  | [w] => w
  | w :: ws => w ++ 32 :: joinWords ws

/-- Python `' '.join(text.split())`: collapse whitespace runs to single spaces
and trim both ends. -/
def collapseWs (l : List ℕ) : List ℕ := joinWords (pySplit l)

/-- The per-character action of `re.sub(r'[^\w\s]', ' ', text)`: a code point
that is neither a word character nor whitespace becomes one space. -/
def subNonWord (c : ℕ) : ℕ := if isWordCp c || isSpaceCp c then c else 32

/-- `LyricsProcessor.normalize_text`: lower-case, collapse whitespace, replace
non-word code points by spaces, collapse again, then NFKD-decompose. -/
def normalize_text (t : List ℕ) : List ℕ :=
  (collapseWs ((collapseWs (t.map lowerCp)).map subNonWord)).flatMap nfkdCp

/-! ## Data model -/

/-- One word-level timing entry (the `word_data` dicts built by the
transcriber: word text, start, end, probability).  The alignment code never
inspects these; it only copies and concatenates them. -/
structure WordTiming where
  word : List ℕ
  start : ℚ
  wend : ℚ
  probability : ℚ
deriving DecidableEq, Repr

/-- One transcription segment dict (`{'start', 'end', 'text', 'words'}`)
produced by the speech-recognition collaborator. -/
structure TranscriptionSegment where
  start : ℚ
  end_ : ℚ
  text : List ℕ
  words : List WordTiming
deriving DecidableEq, Repr

/-- The output dataclass `LyricSegment`.  `word_timings = none` models the
Python default `word_timings=None`; `some ws` models a (possibly empty) list
passed explicitly. -/
structure LyricSegment where
  start_time : ℚ
  end_time : ℚ
  text : List ℕ
  confidence : ℚ
  word_timings : Option (List WordTiming)
deriving DecidableEq, Repr

/-- The three `fuzzywuzzy` similarity metrics used by the matcher, as integer
scores (the library returns integers in `[0, 100]`; the alignment code divides
by `100.0`).  `part_ratio` stands for the library's `fuzz.partial_ratio`. -/
structure FuzzOracle where
  ratio : List ℕ → List ℕ → ℤ
  part_ratio : List ℕ → List ℕ → ℤ
  token_sort_ratio : List ℕ → List ℕ → ℤ

/-! ## Segment matcher -/

/-- The single-segment score of one transcription segment against a normalized
lyric line: `max(fuzz.ratio, fuzz.partial_ratio, fuzz.token_sort_ratio) / 100`
on the normalized segment text. -/
def sscore (F : FuzzOracle) (nl : List ℕ) (seg : TranscriptionSegment) : ℚ :=
  max (max ((F.ratio nl (normalize_text seg.text) : ℚ) / 100)
        ((F.part_ratio nl (normalize_text seg.text) : ℚ) / 100))
    ((F.token_sort_ratio nl (normalize_text seg.text) : ℚ) / 100)

/-- The shared shape of both matching loops: skip ineligible candidates, and
replace the current best `(match?, best_score, best_indices)` exactly when the
candidate's score is strictly greater than the current best AND meets the
threshold. -/
def selStep {α β : Type} (elig : α → Bool) (score : α → ℚ) (mtch : α → β)
    (idxs : α → List ℕ) (thr : ℚ) (st : Option β × ℚ × List ℕ) (c : α) :
    Option β × ℚ × List ℕ :=
  if elig c then
    (if st.2.1 < score c ∧ thr ≤ score c then (some (mtch c), score c, idxs c) else st)
  else st

/-- Loop body of the single-segment pass (`for j, segment in enumerate(...)`):
skip consumed indices, otherwise score the segment and keep it if strictly
better and above threshold. -/
def singleStep (F : FuzzOracle) (thr : ℚ) (nl : List ℕ) (used : Finset ℕ) :
    (Option TranscriptionSegment × ℚ × List ℕ) → ℕ × TranscriptionSegment →
    Option TranscriptionSegment × ℚ × List ℕ :=
  selStep (fun p => decide (p.1 ∉ used)) (fun p => sscore F nl p.2)
    (fun p => p.2) (fun p => [p.1]) thr

/-- The single-segment pass over all (index, segment) pairs, starting from
`(None, 0, [])`. -/
def singlePass (F : FuzzOracle) (thr : ℚ) (nl : List ℕ)
    (segs : List TranscriptionSegment) (used : Finset ℕ) :
    Option TranscriptionSegment × ℚ × List ℕ :=
  segs.enum.foldl (singleStep F thr nl used) (none, 0, [])

/-- The window of a multi-segment candidate `(window_size, start_idx)`:
`transcription_segments[start_idx : start_idx + window_size]`. -/
def cwindow (segs : List TranscriptionSegment) (c : ℕ × ℕ) :
    List TranscriptionSegment :=
  (segs.drop c.2).take c.1

/-- Eligibility of a multi-segment candidate: no index of the window is
already consumed (the code `continue`s when
`any(start_idx + i in used_segments for i in range(window_size))`). -/
def celig (used : Finset ℕ) (c : ℕ × ℕ) : Bool :=
  decide (∀ i ∈ List.range c.1, c.2 + i ∉ used)

/-- The `" ".join(normalize_text(seg['text']) for seg in combined_segments)`
text of a window. -/
def combinedText (window : List TranscriptionSegment) : List ℕ :=
  joinWords (window.map (fun s => normalize_text s.text))

/-- The multi-segment score of a candidate window:
`max(fuzz.ratio, fuzz.token_sort_ratio) / 100` on the joined normalized text
(no partial similarity in this pass). -/
def cscore (F : FuzzOracle) (nl : List ℕ) (segs : List TranscriptionSegment)
    (c : ℕ × ℕ) : ℚ :=
  max ((F.ratio nl (combinedText (cwindow segs c)) : ℚ) / 100)
    ((F.token_sort_ratio nl (combinedText (cwindow segs c)) : ℚ) / 100)

/-- Candidate enumeration order of `_find_multi_segment_match`:
`for window_size in range(2, 5): for start_idx in range(len(segs) - window_size + 1)`.
Window size is the outer loop. -/
def multiCandidates (n : ℕ) : List (ℕ × ℕ) :=
  (List.range' 2 3).flatMap fun w => (List.range (n + 1 - w)).map fun s => (w, s)

/-- Loop body of the multi-segment pass. -/
def multiStep (F : FuzzOracle) (thr : ℚ) (nl : List ℕ)
    (segs : List TranscriptionSegment) (used : Finset ℕ) :
    (Option (List TranscriptionSegment) × ℚ × List ℕ) → ℕ × ℕ →
    Option (List TranscriptionSegment) × ℚ × List ℕ :=
  selStep (celig used) (cscore F nl segs) (cwindow segs)
    (fun c => List.range' c.2 c.1) thr

/-- `LyricsSynchronizer._find_multi_segment_match`: best contiguous window of
2–4 consecutive unconsumed segments, `(best_match, best_score, best_indices)`
starting from `(None, 0, [])`. -/
def find_multi_segment_match (F : FuzzOracle) (target_lyric : List ℕ)
    (segs : List TranscriptionSegment) (used : Finset ℕ) (thr : ℚ) :
    Option (List TranscriptionSegment) × ℚ × List ℕ :=
  (multiCandidates segs.length).foldl (multiStep F thr target_lyric segs used)
    (none, 0, [])

/-- The matcher part of the per-line loop body: run the single-segment pass;
if its best score is below the threshold, the multi-segment pass result
replaces it wholesale. -/
def matcherTriple (F : FuzzOracle) (nl : List ℕ)
    (segs : List TranscriptionSegment) (used : Finset ℕ) (thr : ℚ) :
    Option (TranscriptionSegment ⊕ List TranscriptionSegment) × ℚ × List ℕ :=
  let sp := singlePass F thr nl segs used
  if sp.2.1 < thr then
    let mp := find_multi_segment_match F nl segs used thr
    (mp.1.map Sum.inr, mp.2.1, mp.2.2)
  else (sp.1.map Sum.inl, sp.2.1, sp.2.2)

/-! ## Timing synthesis and the per-line loop -/

/-- Python truthiness of `best_match` (a segment dict or a list of segment
dicts): segment dicts are non-empty hence truthy; a list is truthy iff
non-empty. -/
def pyTruthy : TranscriptionSegment ⊕ List TranscriptionSegment → Bool
  | .inl _ => true
  | .inr l => !l.isEmpty

/-- Python `min(seg['start'] for seg in best_match)`.  The empty case is
unreachable in the code (Python `min` raises on an empty sequence; the
truthiness guard excludes it). -/
def minStarts : List TranscriptionSegment → ℚ
  | [] => 0
  | s :: r => r.foldl (fun a b => min a b.start) s.start

/-- Python `max(seg['end'] for seg in best_match)`; empty case unreachable. -/
def maxEnds : List TranscriptionSegment → ℚ
  | [] => 0
  | s :: r => r.foldl (fun a b => max a b.end_) s.end_

/-- Timing calculation of the matched branch: a single segment copies its
start/end/words; a multi-segment match takes min start, max end, and the
concatenation of the windows' word lists in segment order. -/
def segTiming : TranscriptionSegment ⊕ List TranscriptionSegment →
    ℚ × ℚ × List WordTiming
  | .inl s => (s.start, s.end_, s.words)
  | .inr l => (minStarts l, maxEnds l, l.flatMap (fun s => s.words))

/-- Per-line record: the emitted `LyricSegment` plus instrumentation — whether
the line matched, the chosen match and its score, and the transcription-segment
indices it consumed. -/
structure LineResult where
  seg : LyricSegment
  matched : Bool
  mtch : Option (TranscriptionSegment ⊕ List TranscriptionSegment)
  score : ℚ
  consumed : List ℕ
deriving DecidableEq, Repr

/-- The estimated-timing branch (`else` branch of the per-line loop): start at
the previous output segment's end plus 0.5 s (0.0 when output is empty), end
3.0 s later, confidence 0, no word timings, nothing consumed. -/
def fallbackResult (orig : List ℕ) (acc : List LyricSegment) : LineResult :=
  let est : ℚ × ℚ :=
    match acc.getLast? with
    | some prev => (prev.end_time + 1/2, prev.end_time + 1/2 + 3)
    | none => (0, 3)
  { seg := { start_time := est.1, end_time := est.2, text := orig,
             confidence := 0, word_timings := none },
    matched := false, mtch := none, score := 0, consumed := [] }

/-- One iteration of the per-line loop of `_align_text_with_timestamps`:
run the matcher, and either build the matched segment (and consume the
contributing indices) or fall back to estimated timing. -/
def processLine (F : FuzzOracle) (segs : List TranscriptionSegment) (thr : ℚ)
    (orig nl : List ℕ) (acc : List LyricSegment) (used : Finset ℕ) :
    LineResult :=
  match (matcherTriple F nl segs used thr).1 with
  | some x =>
      if pyTruthy x ∧ thr ≤ (matcherTriple F nl segs used thr).2.1 then
        { seg := { start_time := (segTiming x).1, end_time := (segTiming x).2.1,
                   text := orig, confidence := (matcherTriple F nl segs used thr).2.1,
                   word_timings := some (segTiming x).2.2 },
          matched := true, mtch := some x,
          score := (matcherTriple F nl segs used thr).2.1,
          consumed := (matcherTriple F nl segs used thr).2.2 }
      else fallbackResult orig acc
  | none => fallbackResult orig acc

/-- The per-line loop over `(original, normalized)` lyric pairs, threading the
output list so far (for fallback timing) and the consumed-index set. -/
def alignLines (F : FuzzOracle) (segs : List TranscriptionSegment) (thr : ℚ) :
    List (List ℕ × List ℕ) → List LyricSegment → Finset ℕ → List LineResult
  | [], _, _ => []
  | (orig, nl) :: rest, acc, used =>
      let r := processLine F segs thr orig nl acc used
      r :: alignLines F segs thr rest (acc ++ [r.seg]) (used ∪ r.consumed.toFinset)

/-- The instrumented run of `_align_text_with_timestamps`: zip the lines with
their normalizations and process each in order, starting with no output and an
empty consumption set. -/
def alignResults (F : FuzzOracle) (lyrics_lines : List (List ℕ))
    (segs : List TranscriptionSegment) (thr : ℚ) : List LineResult :=
  alignLines F segs thr (lyrics_lines.zip (lyrics_lines.map normalize_text)) [] ∅

/-- `LyricsSynchronizer._align_text_with_timestamps` (the spec's
`synchronize`): the emitted `LyricSegment` list. -/
def align_text_with_timestamps (F : FuzzOracle) (lyrics_lines : List (List ℕ))
    (segs : List TranscriptionSegment) (thr : ℚ) : List LyricSegment :=
  (alignResults F lyrics_lines segs thr).map (fun r => r.seg)

/-- The best single-segment score over the unconsumed segments (the quantity
the spec calls the "best single-segment score"; the running maximum starts at
the code's initial `best_score = 0`). -/
def bestSingleScore (F : FuzzOracle) (nl : List ℕ)
    (segs : List TranscriptionSegment) (used : Finset ℕ) : ℚ :=
  segs.enum.foldl (fun a p => if p.1 ∈ used then a else max a (sscore F nl p.2)) 0

/-! ## Lemmas: whitespace splitting and joining -/

lemma splitWsAux_good : ∀ (l : List ℕ) (cur : List ℕ),
    (∀ c ∈ cur, isSpaceCp c = false) →
    ∀ w ∈ splitWsAux l cur, w ≠ [] ∧ ∀ c ∈ w, isSpaceCp c = false := by
  intro l
  induction l with
  | nil =>
      intro cur hcur w hw
      by_cases hc : cur.isEmpty
      · simp [splitWsAux, hc] at hw
      · simp [splitWsAux, hc] at hw
        subst hw
        exact ⟨by simpa [List.isEmpty_iff] using hc, hcur⟩
  | cons c cs ih =>
      intro cur hcur w hw
      by_cases hc : isSpaceCp c = true
      · by_cases hce : cur.isEmpty
        · simp [splitWsAux, hc, hce] at hw
          exact ih [] (by simp) w hw
        · simp [splitWsAux, hc, hce] at hw
          rcases hw with hw | hw
          · subst hw
            exact ⟨by simpa [List.isEmpty_iff] using hce, hcur⟩
          · exact ih [] (by simp) w hw
      · simp [splitWsAux, hc] at hw
        refine ih (cur ++ [c]) ?_ w hw
        intro x hx
        rcases List.mem_append.mp hx with hx | hx
        · exact hcur x hx
        · simp at hx
          subst hx
          simpa using hc

lemma splitWsAux_subset : ∀ (l : List ℕ) (cur : List ℕ) (w : List ℕ),
    w ∈ splitWsAux l cur → ∀ c ∈ w, c ∈ cur ∨ c ∈ l := by
  intro l
  induction l with
  | nil =>
      intro cur w hw c hc
      by_cases hce : cur.isEmpty
      · simp [splitWsAux, hce] at hw
      · simp [splitWsAux, hce] at hw
        subst hw
        exact Or.inl hc
  | cons a cs ih =>
      intro cur w hw c hc
      by_cases ha : isSpaceCp a = true
      · by_cases hce : cur.isEmpty
        · simp [splitWsAux, ha, hce] at hw
          rcases ih [] w hw c hc with h | h
          · simp at h
          · exact Or.inr (List.mem_cons_of_mem _ h)
        · simp [splitWsAux, ha, hce] at hw
          rcases hw with hw | hw
          · subst hw
            exact Or.inl hc
          · rcases ih [] w hw c hc with h | h
            · simp at h
            · exact Or.inr (List.mem_cons_of_mem _ h)
      · simp [splitWsAux, ha] at hw
        rcases ih (cur ++ [a]) w hw c hc with h | h
        · rcases List.mem_append.mp h with h | h
          · exact Or.inl h
          · simp at h
            subst h
            exact Or.inr (List.mem_cons_self _ _)
        · exact Or.inr (List.mem_cons_of_mem _ h)

lemma mem_joinWords : ∀ (ws : List (List ℕ)) (c : ℕ),
    c ∈ joinWords ws → (∃ w ∈ ws, c ∈ w) ∨ c = 32 := by
  intro ws
  induction ws with
  | nil => intro c hc; simp [joinWords] at hc
  | cons w ws ih =>
      intro c hc
      cases ws with
      | nil =>
          simp [joinWords] at hc
          exact Or.inl ⟨w, by simp, hc⟩
      | cons w' ws' =>
          simp only [joinWords] at hc
          rcases List.mem_append.mp hc with h | h
          · exact Or.inl ⟨w, by simp, h⟩
          · rcases List.mem_cons.mp h with h | h
            · exact Or.inr h
            · rcases ih c h with ⟨u, hu, hcu⟩ | h
              · exact Or.inl ⟨u, List.mem_cons_of_mem _ hu, hcu⟩
              · exact Or.inr h

lemma splitWsAux_append_word : ∀ (w : List ℕ) (l cur : List ℕ),
    (∀ c ∈ w, isSpaceCp c = false) →
    splitWsAux (w ++ l) cur = splitWsAux l (cur ++ w) := by
  intro w
  induction w with
  | nil => intro l cur _; simp
  | cons c w' ih =>
      intro l cur hw
      have hc : isSpaceCp c = false := hw c (List.mem_cons_self _ _)
      show splitWsAux (c :: (w' ++ l)) cur = _
      rw [splitWsAux, if_neg (by simp [hc])]
      rw [ih l (cur ++ [c]) (fun x hx => hw x (List.mem_cons_of_mem _ hx))]
      simp

lemma pySplit_joinWords : ∀ (ws : List (List ℕ)),
    (∀ w ∈ ws, w ≠ [] ∧ ∀ c ∈ w, isSpaceCp c = false) →
    pySplit (joinWords ws) = ws := by
  intro ws
  induction ws with
  | nil => intro _; rfl
  | cons w ws ih =>
      intro hws
      have hw := hws w (List.mem_cons_self _ _)
      have hwe : w.isEmpty = false := by
        cases w with
        | nil => exact absurd rfl hw.1
        | cons _ _ => rfl
      cases ws with
      | nil =>
          show pySplit (joinWords [w]) = [w]
          unfold pySplit
          rw [show joinWords [w] = w from rfl, ← List.append_nil w,
            splitWsAux_append_word w [] [] hw.2]
          simp [splitWsAux, hwe]
      | cons w' ws' =>
          show pySplit (w ++ 32 :: joinWords (w' :: ws')) = w :: w' :: ws'
          unfold pySplit
          rw [splitWsAux_append_word w _ [] hw.2]
          simp only [List.nil_append]
          rw [splitWsAux, if_pos (by decide)]
          rw [if_neg (by simp [hwe])]
          have := ih (fun u hu => hws u (List.mem_cons_of_mem _ hu))
          unfold pySplit at this
          rw [this]

lemma collapseWs_idem (l : List ℕ) : collapseWs (collapseWs l) = collapseWs l := by
  unfold collapseWs
  rw [pySplit_joinWords (pySplit l) (splitWsAux_good l [] (by simp))]

lemma mem_collapseWs {c : ℕ} {l : List ℕ} (h : c ∈ collapseWs l) :
    c ∈ l ∨ c = 32 := by
  unfold collapseWs at h
  rcases mem_joinWords _ c h with ⟨w, hw, hcw⟩ | h
  · rcases splitWsAux_subset l [] w hw c hcw with h | h
    · simp at h
    · exact Or.inl h
  · exact Or.inr h

/-! ## Lemmas: code-point tables -/

lemma lowerCp_lowerCp (c : ℕ) : lowerCp (lowerCp c) = lowerCp c := by
  unfold lowerCp
  split_ifs <;> omega

lemma lowerCp_lt_128 {c : ℕ} (h : c < 128) : lowerCp c < 128 := by
  unfold lowerCp
  split_ifs <;> omega

lemma subNonWord_keep {c : ℕ} (h : (isWordCp c || isSpaceCp c) = true) :
    subNonWord c = c := by
  unfold subNonWord
  rw [if_pos h]

lemma subNonWord_word_or_space (c : ℕ) :
    (isWordCp (subNonWord c) || isSpaceCp (subNonWord c)) = true := by
  unfold subNonWord
  split_ifs with h
  · exact h
  · decide

lemma nfkdCp_ascii {c : ℕ} (h : c < 128) : nfkdCp c = [c] := by
  unfold nfkdCp
  rw [if_neg (by omega)]

lemma flatMap_nfkd_id {l : List ℕ} (h : ∀ c ∈ l, c < 128) :
    l.flatMap nfkdCp = l := by
  induction l with
  | nil => rfl
  | cons c cs ih =>
      rw [List.flatMap_cons, nfkdCp_ascii (h c (List.mem_cons_self _ _)),
        ih (fun x hx => h x (List.mem_cons_of_mem _ hx))]
      rfl

lemma map_id_of_mem {f : ℕ → ℕ} {l : List ℕ} (h : ∀ c ∈ l, f c = c) :
    l.map f = l := by
  induction l with
  | nil => rfl
  | cons c cs ih =>
      rw [List.map_cons, h c (List.mem_cons_self _ _),
        ih (fun x hx => h x (List.mem_cons_of_mem _ hx))]

/-! ## Idempotence of `normalize_text` on ASCII input -/

lemma normalize_text_eq_of_ascii {t : List ℕ} (h : ∀ c ∈ t, c < 128) :
    normalize_text t = collapseWs ((collapseWs (t.map lowerCp)).map subNonWord) := by
  unfold normalize_text
  apply flatMap_nfkd_id
  intro c hc
  rcases mem_collapseWs hc with hc | hc
  · rcases List.mem_map.mp hc with ⟨d, hd, rfl⟩
    rcases mem_collapseWs hd with hd | hd
    · rcases List.mem_map.mp hd with ⟨e, he, rfl⟩
      have : lowerCp e < 128 := lowerCp_lt_128 (h e he)
      unfold subNonWord
      split_ifs <;> omega
    · subst hd
      decide
  · omega

lemma normalize_text_chars_ascii {t : List ℕ} (h : ∀ c ∈ t, c < 128) :
    ∀ c ∈ normalize_text t,
      c < 128 ∧ lowerCp c = c ∧ (isWordCp c || isSpaceCp c) = true := by
  rw [normalize_text_eq_of_ascii h]
  intro c hc
  rcases mem_collapseWs hc with hc | hc
  · rcases List.mem_map.mp hc with ⟨d, hd, rfl⟩
    have hdprops : d < 128 ∧ lowerCp d = d := by
      rcases mem_collapseWs hd with hd | hd
      · rcases List.mem_map.mp hd with ⟨e, he, rfl⟩
        exact ⟨lowerCp_lt_128 (h e he), lowerCp_lowerCp e⟩
      · subst hd
        exact ⟨by omega, by decide⟩
    refine ⟨?_, ?_, subNonWord_word_or_space d⟩
    · unfold subNonWord
      split_ifs
      · exact hdprops.1
      · omega
    · unfold subNonWord
      split_ifs with hw
      · exact hdprops.2
      · decide
  · subst hc
    exact ⟨by omega, by decide, by decide⟩

lemma normalize_text_idem_of_ascii {t : List ℕ} (h : ∀ c ∈ t, c < 128) :
    normalize_text (normalize_text t) = normalize_text t := by
  have hy := normalize_text_chars_ascii h
  have hyascii : ∀ c ∈ normalize_text t, c < 128 := fun c hc => (hy c hc).1
  have hcoll : collapseWs (normalize_text t) = normalize_text t := by
    rw [normalize_text_eq_of_ascii h]
    exact collapseWs_idem _
  rw [normalize_text_eq_of_ascii hyascii]
  rw [map_id_of_mem (fun c hc => (hy c hc).2.1)]
  rw [hcoll]
  rw [map_id_of_mem (fun c hc => subNonWord_keep (hy c hc).2.2)]
  rw [hcoll]

/-! ## Characterization of the best-candidate folds -/

/-- Invariant of both matching loops after processing the candidates `h`:
either nothing has been kept (and every eligible processed candidate scored
below the threshold or not above the initial `best_score = 0`), or the state
holds the first processed eligible candidate attaining the running maximum,
with its score and indices. -/
def SelInv {α β : Type} (elig : α → Bool) (score : α → ℚ) (mtch : α → β)
    (idxs : α → List ℕ) (thr : ℚ) (h : List α) (s : Option β × ℚ × List ℕ) :
    Prop :=
  (s = (none, 0, []) ∧ ∀ c ∈ h, elig c = true → (score c < thr ∨ score c ≤ 0))
  ∨ ∃ k c, h.get? k = some c ∧ elig c = true ∧
      s = (some (mtch c), score c, idxs c) ∧
      thr ≤ score c ∧ 0 < score c ∧
      (∀ j c', j < k → h.get? j = some c' → elig c' = true → score c' < score c) ∧
      (∀ c' ∈ h, elig c' = true → score c' ≤ score c ∨ score c' < thr)

lemma selInv_step {α β : Type} (elig : α → Bool) (score : α → ℚ) (mtch : α → β)
    (idxs : α → List ℕ) (thr : ℚ) (h : List α) (s : Option β × ℚ × List ℕ)
    (c : α) (H : SelInv elig score mtch idxs thr h s) :
    SelInv elig score mtch idxs thr (h ++ [c])
      (selStep elig score mtch idxs thr s c) := by
  unfold selStep
  by_cases he : elig c = true
  · rw [if_pos he]
    by_cases hup : s.2.1 < score c ∧ thr ≤ score c
    · rw [if_pos hup]
      rcases H with ⟨hs, hall⟩ | ⟨k, c₀, hk, he₀, hs, hthr₀, hpos₀, hfirst₀, hmax₀⟩
      · have h0 : s.2.1 = (0 : ℚ) := by rw [hs]
        refine Or.inr ⟨h.length, c, List.get?_concat_length h c, he, rfl,
          hup.2, by rw [← h0]; exact hup.1, ?_, ?_⟩
        · intro j c' hj hj' he'
          rw [List.get?_append (by omega)] at hj'
          rcases hall c' (List.get?_mem hj') he' with h' | h'
          · exact lt_of_lt_of_le h' hup.2
          · calc score c' ≤ 0 := h'
              _ < score c := by rw [← h0]; exact hup.1
        · intro c' hc' he'
          rcases List.mem_append.mp hc' with h' | h'
          · rcases hall c' h' he' with h'' | h''
            · exact Or.inr h''
            · exact Or.inl (le_of_lt (lt_of_le_of_lt h'' (by rw [← h0]; exact hup.1)))
          · simp at h'
            subst h'
            exact Or.inl le_rfl
      · have hs21 : s.2.1 = score c₀ := by rw [hs]
        have hlt : score c₀ < score c := by rw [← hs21]; exact hup.1
        have hklt : k < h.length := by
          rcases List.get?_eq_some.mp hk with ⟨h1, _⟩
          exact h1
        refine Or.inr ⟨h.length, c, List.get?_concat_length h c, he, rfl,
          hup.2, lt_trans hpos₀ hlt, ?_, ?_⟩
        · intro j c' hj hj' he'
          rw [List.get?_append (by omega)] at hj'
          rcases hmax₀ c' (List.get?_mem hj') he' with h' | h'
          · exact lt_of_le_of_lt h' hlt
          · exact lt_of_lt_of_le h' hup.2
        · intro c' hc' he'
          rcases List.mem_append.mp hc' with h' | h'
          · rcases hmax₀ c' h' he' with h'' | h''
            · exact Or.inl (le_of_lt (lt_of_le_of_lt h'' hlt))
            · exact Or.inr h''
          · simp at h'
            subst h'
            exact Or.inl le_rfl
    · rw [if_neg hup]
      rcases H with ⟨hs, hall⟩ | ⟨k, c₀, hk, he₀, hs, hthr₀, hpos₀, hfirst₀, hmax₀⟩
      · refine Or.inl ⟨hs, ?_⟩
        intro c' hc' he'
        rcases List.mem_append.mp hc' with h' | h'
        · exact hall c' h' he'
        · simp at h'
          subst h'
          have h0 : s.2.1 = (0 : ℚ) := by rw [hs]
          rw [h0] at hup
          rcases not_and_or.mp hup with h'' | h''
          · exact Or.inr (le_of_not_lt h'')
          · exact Or.inl (lt_of_not_le h'')
      · have hklt : k < h.length := by
          rcases List.get?_eq_some.mp hk with ⟨h1, _⟩
          exact h1
        refine Or.inr ⟨k, c₀, by rw [List.get?_append hklt]; exact hk, he₀, hs,
          hthr₀, hpos₀, ?_, ?_⟩
        · intro j c' hj hj' he'
          rw [List.get?_append (by omega)] at hj'
          exact hfirst₀ j c' hj hj' he'
        · intro c' hc' he'
          rcases List.mem_append.mp hc' with h' | h'
          · exact hmax₀ c' h' he'
          · simp at h'
            subst h'
            have hs21 : s.2.1 = score c₀ := by rw [hs]
            rw [hs21] at hup
            rcases not_and_or.mp hup with h'' | h''
            · exact Or.inl (le_of_not_lt h'')
            · exact Or.inr (lt_of_not_le h'')
  · rw [if_neg he]
    rcases H with ⟨hs, hall⟩ | ⟨k, c₀, hk, he₀, hs, hthr₀, hpos₀, hfirst₀, hmax₀⟩
    · refine Or.inl ⟨hs, ?_⟩
      intro c' hc' he'
      rcases List.mem_append.mp hc' with h' | h'
      · exact hall c' h' he'
      · simp at h'
        subst h'
        exact absurd he' he
    · have hklt : k < h.length := by
        rcases List.get?_eq_some.mp hk with ⟨h1, _⟩
        exact h1
      refine Or.inr ⟨k, c₀, by rw [List.get?_append hklt]; exact hk, he₀, hs,
        hthr₀, hpos₀, ?_, ?_⟩
      · intro j c' hj hj' he'
        rw [List.get?_append (by omega)] at hj'
        exact hfirst₀ j c' hj hj' he'
      · intro c' hc' he'
        rcases List.mem_append.mp hc' with h' | h'
        · exact hmax₀ c' h' he'
        · simp at h'
          subst h'
          exact absurd he' he

lemma selInv_foldl {α β : Type} (elig : α → Bool) (score : α → ℚ) (mtch : α → β)
    (idxs : α → List ℕ) (thr : ℚ) :
    ∀ (l h : List α) (s : Option β × ℚ × List ℕ),
    SelInv elig score mtch idxs thr h s →
    SelInv elig score mtch idxs thr (h ++ l)
      (l.foldl (selStep elig score mtch idxs thr) s) := by
  intro l
  induction l with
  | nil =>
      intro h s H
      simpa using H
  | cons c l ih =>
      intro h s H
      have := ih (h ++ [c]) _ (selInv_step elig score mtch idxs thr h s c H)
      simpa using this

lemma selInv_fold {α β : Type} (elig : α → Bool) (score : α → ℚ) (mtch : α → β)
    (idxs : α → List ℕ) (thr : ℚ) (l : List α) :
    SelInv elig score mtch idxs thr l
      (l.foldl (selStep elig score mtch idxs thr) (none, 0, [])) := by
  have := selInv_foldl elig score mtch idxs thr l [] (none, 0, [])
    (Or.inl ⟨rfl, by simp⟩)
  simpa using this

/-! ## Derived facts about the two passes -/

lemma singlePass_inv (F : FuzzOracle) (thr : ℚ) (nl : List ℕ)
    (segs : List TranscriptionSegment) (used : Finset ℕ) :
    SelInv (fun p => decide (p.1 ∉ used)) (fun p => sscore F nl p.2)
      (fun p => p.2) (fun p : ℕ × TranscriptionSegment => [p.1]) thr
      segs.enum (singlePass F thr nl segs used) :=
  selInv_fold _ _ _ _ thr segs.enum

lemma multiPass_inv (F : FuzzOracle) (nl : List ℕ)
    (segs : List TranscriptionSegment) (used : Finset ℕ) (thr : ℚ) :
    SelInv (celig used) (cscore F nl segs) (cwindow segs)
      (fun c => List.range' c.2 c.1) thr (multiCandidates segs.length)
      (find_multi_segment_match F nl segs used thr) :=
  selInv_fold _ _ _ _ thr (multiCandidates segs.length)

lemma singlePass_none {F : FuzzOracle} {thr : ℚ} {nl : List ℕ}
    {segs : List TranscriptionSegment} {used : Finset ℕ}
    (h : (singlePass F thr nl segs used).1 = none) :
    singlePass F thr nl segs used = (none, 0, []) ∧
      ∀ p ∈ segs.enum, p.1 ∉ used →
        (sscore F nl p.2 < thr ∨ sscore F nl p.2 ≤ 0) := by
  rcases singlePass_inv F thr nl segs used with ⟨hs, hall⟩ | ⟨k, c, _, _, hs, _⟩
  · exact ⟨hs, fun p hp hu => hall p hp (by simpa using hu)⟩
  · rw [hs] at h
    simp at h

lemma singlePass_some {F : FuzzOracle} {thr : ℚ} {nl : List ℕ}
    {segs : List TranscriptionSegment} {used : Finset ℕ}
    {seg : TranscriptionSegment}
    (h : (singlePass F thr nl segs used).1 = some seg) :
    ∃ k p, segs.enum.get? k = some p ∧ p.1 ∉ used ∧ p.2 = seg ∧
      singlePass F thr nl segs used = (some p.2, sscore F nl p.2, [p.1]) ∧
      thr ≤ sscore F nl p.2 ∧ 0 < sscore F nl p.2 ∧
      (∀ p' ∈ segs.enum, p'.1 ∉ used →
        sscore F nl p'.2 ≤ sscore F nl p.2 ∨ sscore F nl p'.2 < thr) := by
  rcases singlePass_inv F thr nl segs used with ⟨hs, _⟩ |
    ⟨k, p, hk, he, hs, hthr, hpos, _, hmax⟩
  · rw [hs] at h
    simp at h
  · refine ⟨k, p, hk, by simpa using he, ?_, hs, hthr, hpos,
      fun p' hp' hu' => hmax p' hp' (by simpa using hu')⟩
    rw [hs] at h
    simpa using h

lemma multiPass_none {F : FuzzOracle} {nl : List ℕ}
    {segs : List TranscriptionSegment} {used : Finset ℕ} {thr : ℚ}
    (h : (find_multi_segment_match F nl segs used thr).1 = none) :
    find_multi_segment_match F nl segs used thr = (none, 0, []) := by
  rcases multiPass_inv F nl segs used thr with ⟨hs, _⟩ | ⟨k, c, _, _, hs, _⟩
  · exact hs
  · rw [hs] at h
    simp at h

lemma multiPass_some {F : FuzzOracle} {nl : List ℕ}
    {segs : List TranscriptionSegment} {used : Finset ℕ} {thr : ℚ}
    {l : List TranscriptionSegment}
    (h : (find_multi_segment_match F nl segs used thr).1 = some l) :
    ∃ k c, (multiCandidates segs.length).get? k = some c ∧
      celig used c = true ∧ l = cwindow segs c ∧
      find_multi_segment_match F nl segs used thr =
        (some (cwindow segs c), cscore F nl segs c, List.range' c.2 c.1) ∧
      thr ≤ cscore F nl segs c ∧ 0 < cscore F nl segs c ∧
      (∀ j c', j < k → (multiCandidates segs.length).get? j = some c' →
        celig used c' = true → cscore F nl segs c' < cscore F nl segs c) ∧
      (∀ c' ∈ multiCandidates segs.length, celig used c' = true →
        cscore F nl segs c' ≤ cscore F nl segs c ∨ cscore F nl segs c' < thr) := by
  rcases multiPass_inv F nl segs used thr with ⟨hs, _⟩ |
    ⟨k, c, hk, he, hs, hthr, hpos, hfirst, hmax⟩
  · rw [hs] at h
    simp at h
  · refine ⟨k, c, hk, he, ?_, hs, hthr, hpos, hfirst, hmax⟩
    rw [hs] at h
    simpa using h.symm

lemma mem_multiCandidates {n : ℕ} {c : ℕ × ℕ} (h : c ∈ multiCandidates n) :
    2 ≤ c.1 ∧ c.1 ≤ 4 ∧ c.2 + c.1 ≤ n := by
  unfold multiCandidates at h
  rcases List.mem_flatMap.mp h with ⟨w, hw, hc⟩
  rcases List.mem_map.mp hc with ⟨s, hs, rfl⟩
  rw [List.mem_range'] at hw
  rw [List.mem_range] at hs
  rcases hw with ⟨i, hi, hw⟩
  simp only
  omega

lemma celig_iff {used : Finset ℕ} {c : ℕ × ℕ} :
    celig used c = true ↔ ∀ i < c.1, c.2 + i ∉ used := by
  unfold celig
  rw [decide_eq_true_eq]
  constructor
  · intro h i hi
    exact h i (List.mem_range.mpr hi)
  · intro h i hi
    exact h i (List.mem_range.mp hi)

lemma length_cwindow {segs : List TranscriptionSegment} {c : ℕ × ℕ}
    (h : c.2 + c.1 ≤ segs.length) : (cwindow segs c).length = c.1 := by
  unfold cwindow
  rw [List.length_take, List.length_drop]
  omega

lemma mem_of_mem_cwindow {segs : List TranscriptionSegment} {c : ℕ × ℕ}
    {s : TranscriptionSegment} (h : s ∈ cwindow segs c) : s ∈ segs :=
  List.mem_of_mem_drop (List.mem_of_mem_take h)

/-! ## The best single-segment score -/

lemma bssFold_ge_init (used : Finset ℕ) (f : ℕ × TranscriptionSegment → ℚ) :
    ∀ (l : List (ℕ × TranscriptionSegment)) (a : ℚ),
    a ≤ l.foldl (fun b p => if p.1 ∈ used then b else max b (f p)) a := by
  intro l
  induction l with
  | nil => intro a; simp
  | cons p l ih =>
      intro a
      rw [List.foldl_cons]
      refine le_trans ?_ (ih _)
      split_ifs
      · exact le_rfl
      · exact le_max_left _ _

lemma bssFold_ge_mem (used : Finset ℕ) (f : ℕ × TranscriptionSegment → ℚ) :
    ∀ (l : List (ℕ × TranscriptionSegment)) (a : ℚ)
    (p : ℕ × TranscriptionSegment), p ∈ l → p.1 ∉ used →
    f p ≤ l.foldl (fun b q => if q.1 ∈ used then b else max b (f q)) a := by
  intro l
  induction l with
  | nil => intro a p hp; simp at hp
  | cons q l ih =>
      intro a p hp hu
      rw [List.foldl_cons]
      rcases List.mem_cons.mp hp with rfl | hp
      · refine le_trans ?_ (bssFold_ge_init used f l _)
        rw [if_neg hu]
        exact le_max_right _ _
      · exact ih _ p hp hu

lemma bssFold_lt (used : Finset ℕ) (f : ℕ × TranscriptionSegment → ℚ) :
    ∀ (l : List (ℕ × TranscriptionSegment)) (a q : ℚ), a < q →
    (∀ p ∈ l, p.1 ∉ used → f p < q) →
    l.foldl (fun b p => if p.1 ∈ used then b else max b (f p)) a < q := by
  intro l
  induction l with
  | nil => intro a q ha _; simpa using ha
  | cons p l ih =>
      intro a q ha hall
      rw [List.foldl_cons]
      refine ih _ q ?_ (fun p' hp' hu' => hall p' (List.mem_cons_of_mem _ hp') hu')
      split_ifs with hu
      · exact ha
      · exact max_lt ha (hall p (List.mem_cons_self _ _) hu)

lemma bestSingleScore_nonneg (F : FuzzOracle) (nl : List ℕ)
    (segs : List TranscriptionSegment) (used : Finset ℕ) :
    0 ≤ bestSingleScore F nl segs used :=
  bssFold_ge_init used _ segs.enum 0

lemma le_bestSingleScore {F : FuzzOracle} {nl : List ℕ}
    {segs : List TranscriptionSegment} {used : Finset ℕ}
    {p : ℕ × TranscriptionSegment} (hp : p ∈ segs.enum) (hu : p.1 ∉ used) :
    sscore F nl p.2 ≤ bestSingleScore F nl segs used :=
  bssFold_ge_mem used _ segs.enum 0 p hp hu

/-- The code's running `best_score` after the single-segment pass is below the
threshold exactly when the best single-segment score is. -/
lemma singlePass_lt_thr_iff (F : FuzzOracle) (thr : ℚ) (nl : List ℕ)
    (segs : List TranscriptionSegment) (used : Finset ℕ) :
    (singlePass F thr nl segs used).2.1 < thr ↔
      bestSingleScore F nl segs used < thr := by
  constructor
  · intro h
    rcases singlePass_inv F thr nl segs used with ⟨hs, hall⟩ |
      ⟨k, p, hk, he, hs, hthr, hpos, _, hmax⟩
    · have h0 : (0 : ℚ) < thr := by
        rw [hs] at h
        exact h
      refine bssFold_lt used _ segs.enum 0 thr h0 ?_
      intro p hp hu
      rcases hall p hp (by simpa using hu) with h' | h'
      · exact h'
      · exact lt_of_le_of_lt h' h0
    · have hsc : (singlePass F thr nl segs used).2.1 = sscore F nl p.2 := by
        rw [hs]
      rw [hsc] at h
      refine bssFold_lt used _ segs.enum 0 thr (lt_trans hpos h) ?_
      intro p' hp' hu'
      rcases hmax p' hp' (by simpa using hu') with h' | h'
      · exact lt_of_le_of_lt h' h
      · exact h'
  · intro h
    by_contra h'
    push_neg at h'
    rcases singlePass_inv F thr nl segs used with ⟨hs, _⟩ |
      ⟨k, p, hk, he, hs, hthr, hpos, _, _⟩
    · rw [hs] at h'
      exact absurd (lt_of_le_of_lt h' (lt_of_le_of_lt (bestSingleScore_nonneg F nl segs used) h)) (lt_irrefl _)
    · have hsc : (singlePass F thr nl segs used).2.1 = sscore F nl p.2 := by
        rw [hs]
      rw [hsc] at h'
      have h2 : sscore F nl p.2 ≤ bestSingleScore F nl segs used :=
        le_bestSingleScore (List.get?_mem hk) (by simpa using he)
      exact absurd (lt_of_le_of_lt (le_trans h' h2) h) (lt_irrefl _)

/-! ## Facts about the combined matcher -/

lemma matcherTriple_single {F : FuzzOracle} {nl : List ℕ}
    {segs : List TranscriptionSegment} {used : Finset ℕ} {thr : ℚ}
    (h : ¬ (singlePass F thr nl segs used).2.1 < thr) :
    matcherTriple F nl segs used thr =
      ((singlePass F thr nl segs used).1.map Sum.inl,
        (singlePass F thr nl segs used).2.1,
        (singlePass F thr nl segs used).2.2) := by
  unfold matcherTriple
  rw [if_neg h]

lemma matcherTriple_multi {F : FuzzOracle} {nl : List ℕ}
    {segs : List TranscriptionSegment} {used : Finset ℕ} {thr : ℚ}
    (h : (singlePass F thr nl segs used).2.1 < thr) :
    matcherTriple F nl segs used thr =
      ((find_multi_segment_match F nl segs used thr).1.map Sum.inr,
        (find_multi_segment_match F nl segs used thr).2.1,
        (find_multi_segment_match F nl segs used thr).2.2) := by
  unfold matcherTriple
  rw [if_pos h]

lemma matcherTriple_some_inl {F : FuzzOracle} {nl : List ℕ}
    {segs : List TranscriptionSegment} {used : Finset ℕ} {thr : ℚ}
    {seg : TranscriptionSegment}
    (h : (matcherTriple F nl segs used thr).1 = some (Sum.inl seg)) :
    ¬ (singlePass F thr nl segs used).2.1 < thr ∧
      (singlePass F thr nl segs used).1 = some seg ∧
      matcherTriple F nl segs used thr =
        (some (Sum.inl seg), (singlePass F thr nl segs used).2.1,
          (singlePass F thr nl segs used).2.2) := by
  by_cases hc : (singlePass F thr nl segs used).2.1 < thr
  · rw [matcherTriple_multi hc] at h
    cases hm : (find_multi_segment_match F nl segs used thr).1 with
    | none => rw [hm] at h; simp at h
    | some l => rw [hm] at h; simp at h
  · rw [matcherTriple_single hc] at h
    cases hm : (singlePass F thr nl segs used).1 with
    | none => rw [hm] at h; simp at h
    | some s =>
        rw [hm] at h
        simp at h
        subst h
        exact ⟨hc, rfl, by rw [matcherTriple_single hc, hm]; rfl⟩

lemma matcherTriple_some_inr {F : FuzzOracle} {nl : List ℕ}
    {segs : List TranscriptionSegment} {used : Finset ℕ} {thr : ℚ}
    {l : List TranscriptionSegment}
    (h : (matcherTriple F nl segs used thr).1 = some (Sum.inr l)) :
    (singlePass F thr nl segs used).2.1 < thr ∧
      (find_multi_segment_match F nl segs used thr).1 = some l ∧
      matcherTriple F nl segs used thr =
        (some (Sum.inr l), (find_multi_segment_match F nl segs used thr).2.1,
          (find_multi_segment_match F nl segs used thr).2.2) := by
  by_cases hc : (singlePass F thr nl segs used).2.1 < thr
  · rw [matcherTriple_multi hc] at h
    cases hm : (find_multi_segment_match F nl segs used thr).1 with
    | none => rw [hm] at h; simp at h
    | some l' =>
        rw [hm] at h
        simp at h
        subst h
        exact ⟨hc, rfl, by rw [matcherTriple_multi hc, hm]; rfl⟩
  · rw [matcherTriple_single hc] at h
    cases hm : (singlePass F thr nl segs used).1 with
    | none => rw [hm] at h; simp at h
    | some s => rw [hm] at h; simp at h

lemma matcherTriple_fresh (F : FuzzOracle) (nl : List ℕ)
    (segs : List TranscriptionSegment) (used : Finset ℕ) (thr : ℚ) :
    ∀ j ∈ (matcherTriple F nl segs used thr).2.2, j ∉ used := by
  intro j hj
  by_cases hc : (singlePass F thr nl segs used).2.1 < thr
  · rw [matcherTriple_multi hc] at hj
    cases hm : (find_multi_segment_match F nl segs used thr).1 with
    | none =>
        rw [multiPass_none hm] at hj
        simp at hj
    | some l =>
        rcases multiPass_some hm with ⟨k, c, hk, he, _, hs, _⟩
        rw [hs] at hj
        simp only at hj
        rw [List.mem_range'_1] at hj
        have := celig_iff.mp he (j - c.2) (by omega)
        have hje : c.2 + (j - c.2) = j := by omega
        rw [hje] at this
        exact this
  · rw [matcherTriple_single hc] at hj
    cases hm : (singlePass F thr nl segs used).1 with
    | none =>
        rw [(singlePass_none hm).1] at hj
        simp at hj
    | some s =>
        rcases singlePass_some hm with ⟨k, p, hk, hu, _, hs, _⟩
        rw [hs] at hj
        simp at hj
        subst hj
        exact hu

lemma matcherTriple_some_score {F : FuzzOracle} {nl : List ℕ}
    {segs : List TranscriptionSegment} {used : Finset ℕ} {thr : ℚ}
    {x : TranscriptionSegment ⊕ List TranscriptionSegment}
    (h : (matcherTriple F nl segs used thr).1 = some x) :
    thr ≤ (matcherTriple F nl segs used thr).2.1 ∧
      0 < (matcherTriple F nl segs used thr).2.1 ∧
      (singlePass F thr nl segs used).2.1 ≤ (matcherTriple F nl segs used thr).2.1 := by
  cases x with
  | inl seg =>
      rcases matcherTriple_some_inl h with ⟨hc, hm, hs⟩
      rcases singlePass_some hm with ⟨k, p, hk, hu, hps, hsp, hthr, hpos, _⟩
      rw [hs]
      simp only
      rw [hsp]
      exact ⟨by simpa using hthr, by simpa using hpos, le_rfl⟩
  | inr l =>
      rcases matcherTriple_some_inr h with ⟨hc, hm, hs⟩
      rcases multiPass_some hm with ⟨k, c, hk, he, _, hmp, hthr, hpos, _⟩
      rw [hs]
      simp only
      rw [hmp]
      simp only
      exact ⟨hthr, hpos, le_of_lt (lt_of_lt_of_le hc hthr)⟩

/-! ## Facts about the per-line loop body -/

lemma processLine_cases (F : FuzzOracle) (segs : List TranscriptionSegment)
    (thr : ℚ) (orig nl : List ℕ) (acc : List LyricSegment) (used : Finset ℕ) :
    processLine F segs thr orig nl acc used = fallbackResult orig acc ∨
    ∃ x, (matcherTriple F nl segs used thr).1 = some x ∧ pyTruthy x = true ∧
      thr ≤ (matcherTriple F nl segs used thr).2.1 ∧
      processLine F segs thr orig nl acc used =
        { seg := { start_time := (segTiming x).1, end_time := (segTiming x).2.1,
                   text := orig, confidence := (matcherTriple F nl segs used thr).2.1,
                   word_timings := some (segTiming x).2.2 },
          matched := true, mtch := some x,
          score := (matcherTriple F nl segs used thr).2.1,
          consumed := (matcherTriple F nl segs used thr).2.2 } := by
  unfold processLine
  cases hm : (matcherTriple F nl segs used thr).1 with
  | none => exact Or.inl rfl
  | some x =>
      by_cases hc : pyTruthy x = true ∧ thr ≤ (matcherTriple F nl segs used thr).2.1
      · exact Or.inr ⟨x, rfl, hc.1, hc.2, if_pos hc⟩
      · exact Or.inl (if_neg hc)

lemma fallbackResult_matched (orig : List ℕ) (acc : List LyricSegment) :
    (fallbackResult orig acc).matched = false := rfl

lemma fallbackResult_consumed (orig : List ℕ) (acc : List LyricSegment) :
    (fallbackResult orig acc).consumed = [] := rfl

lemma processLine_not_matched {F : FuzzOracle} {segs : List TranscriptionSegment}
    {thr : ℚ} {orig nl : List ℕ} {acc : List LyricSegment} {used : Finset ℕ}
    (h : (processLine F segs thr orig nl acc used).matched = false) :
    processLine F segs thr orig nl acc used = fallbackResult orig acc := by
  rcases processLine_cases F segs thr orig nl acc used with hc | ⟨x, _, _, _, hc⟩
  · exact hc
  · rw [hc] at h
    simp at h

lemma processLine_consumed_fresh (F : FuzzOracle) (segs : List TranscriptionSegment)
    (thr : ℚ) (orig nl : List ℕ) (acc : List LyricSegment) (used : Finset ℕ) :
    ∀ j ∈ (processLine F segs thr orig nl acc used).consumed, j ∉ used := by
  intro j hj
  rcases processLine_cases F segs thr orig nl acc used with hc | ⟨x, _, _, _, hc⟩
  · rw [hc, fallbackResult_consumed] at hj
    simp at hj
  · rw [hc] at hj
    exact matcherTriple_fresh F nl segs used thr j hj

/-! ## Facts about the per-line loop -/

lemma alignLines_length (F : FuzzOracle) (segs : List TranscriptionSegment)
    (thr : ℚ) : ∀ (pairs : List (List ℕ × List ℕ)) (acc : List LyricSegment)
    (used : Finset ℕ),
    (alignLines F segs thr pairs acc used).length = pairs.length := by
  intro pairs
  induction pairs with
  | nil => intro acc used; rfl
  | cons p rest ih =>
      intro acc used
      cases p with
      | mk orig nl =>
          simp only [alignLines, List.length_cons]
          rw [ih]

lemma alignLines_mem (F : FuzzOracle) (segs : List TranscriptionSegment)
    (thr : ℚ) : ∀ (pairs : List (List ℕ × List ℕ)) (acc : List LyricSegment)
    (used : Finset ℕ) (r : LineResult),
    r ∈ alignLines F segs thr pairs acc used →
    ∃ orig nl acc' used', (orig, nl) ∈ pairs ∧ used ⊆ used' ∧
      r = processLine F segs thr orig nl acc' used' := by
  intro pairs
  induction pairs with
  | nil => intro acc used r hr; simp [alignLines] at hr
  | cons p rest ih =>
      intro acc used r hr
      cases p with
      | mk orig nl =>
          simp only [alignLines] at hr
          rcases List.mem_cons.mp hr with rfl | hr
          · exact ⟨orig, nl, acc, used, by simp, Finset.Subset.refl _, rfl⟩
          · rcases ih _ _ r hr with ⟨o, n, acc', used', hmem, hsub, hr'⟩
            exact ⟨o, n, acc', used', List.mem_cons_of_mem _ hmem,
              Finset.Subset.trans (Finset.subset_union_left) hsub, hr'⟩

lemma alignLines_consumed_fresh (F : FuzzOracle) (segs : List TranscriptionSegment)
    (thr : ℚ) (pairs : List (List ℕ × List ℕ)) (acc : List LyricSegment)
    (used : Finset ℕ) :
    ∀ r ∈ alignLines F segs thr pairs acc used, ∀ j ∈ r.consumed, j ∉ used := by
  intro r hr j hj hju
  rcases alignLines_mem F segs thr pairs acc used r hr with
    ⟨o, n, acc', used', _, hsub, hr'⟩
  rw [hr'] at hj
  exact processLine_consumed_fresh F segs thr o n acc' used' j hj (hsub hju)

lemma alignLines_pairwise (F : FuzzOracle) (segs : List TranscriptionSegment)
    (thr : ℚ) : ∀ (pairs : List (List ℕ × List ℕ)) (acc : List LyricSegment)
    (used : Finset ℕ),
    (alignLines F segs thr pairs acc used).Pairwise
      (fun a b => ∀ j ∈ a.consumed, j ∉ b.consumed) := by
  intro pairs
  induction pairs with
  | nil => intro acc used; simp [alignLines]
  | cons p rest ih =>
      intro acc used
      cases p with
      | mk orig nl =>
          simp only [alignLines]
          refine List.Pairwise.cons ?_ (ih _ _)
          intro b hb j hjr hjb
          have hfresh := alignLines_consumed_fresh F segs thr rest
            (acc ++ [(processLine F segs thr orig nl acc used).seg])
            (used ∪ (processLine F segs thr orig nl acc used).consumed.toFinset)
            b hb j hjb
          exact hfresh (Finset.mem_union_right _ (List.mem_toFinset.mpr hjr))

/-! ## Minimum start and maximum end of a multi-segment match -/

lemma foldlMin_le_init : ∀ (r : List TranscriptionSegment) (a : ℚ),
    r.foldl (fun x b => min x b.start) a ≤ a := by
  intro r
  induction r with
  | nil => intro a; simp
  | cons b r ih =>
      intro a
      rw [List.foldl_cons]
      exact le_trans (ih _) (min_le_left _ _)

lemma foldlMin_le_mem : ∀ (r : List TranscriptionSegment) (a : ℚ)
    (s : TranscriptionSegment), s ∈ r →
    r.foldl (fun x b => min x b.start) a ≤ s.start := by
  intro r
  induction r with
  | nil => intro a s hs; simp at hs
  | cons b r ih =>
      intro a s hs
      rw [List.foldl_cons]
      rcases List.mem_cons.mp hs with rfl | hs
      · exact le_trans (foldlMin_le_init r _) (min_le_right _ _)
      · exact ih _ s hs

lemma foldlMin_attained : ∀ (r : List TranscriptionSegment) (a : ℚ),
    r.foldl (fun x b => min x b.start) a = a ∨
    ∃ s ∈ r, r.foldl (fun x b => min x b.start) a = s.start := by
  intro r
  induction r with
  | nil => intro a; exact Or.inl rfl
  | cons b r ih =>
      intro a
      rw [List.foldl_cons]
      rcases ih (min a b.start) with h | ⟨s, hs, h⟩
      · rcases min_choice a b.start with h' | h'
        · exact Or.inl (by rw [h, h'])
        · exact Or.inr ⟨b, List.mem_cons_self _ _, by rw [h, h']⟩
      · exact Or.inr ⟨s, List.mem_cons_of_mem _ hs, h⟩

lemma minStarts_le {l : List TranscriptionSegment} {s : TranscriptionSegment}
    (hs : s ∈ l) : minStarts l ≤ s.start := by
  cases l with
  | nil => simp at hs
  | cons b r =>
      unfold minStarts
      rcases List.mem_cons.mp hs with rfl | hs
      · exact foldlMin_le_init r _
      · exact foldlMin_le_mem r _ s hs

lemma minStarts_attained {l : List TranscriptionSegment} (h : l ≠ []) :
    ∃ s ∈ l, minStarts l = s.start := by
  cases l with
  | nil => exact absurd rfl h
  | cons b r =>
      unfold minStarts
      rcases foldlMin_attained r b.start with h' | ⟨s, hs, h'⟩
      · exact ⟨b, List.mem_cons_self _ _, h'⟩
      · exact ⟨s, List.mem_cons_of_mem _ hs, h'⟩

lemma foldlMax_ge_init : ∀ (r : List TranscriptionSegment) (a : ℚ),
    a ≤ r.foldl (fun x b => max x b.end_) a := by
  intro r
  induction r with
  | nil => intro a; simp
  | cons b r ih =>
      intro a
      rw [List.foldl_cons]
      exact le_trans (le_max_left _ _) (ih _)

lemma foldlMax_ge_mem : ∀ (r : List TranscriptionSegment) (a : ℚ)
    (s : TranscriptionSegment), s ∈ r →
    s.end_ ≤ r.foldl (fun x b => max x b.end_) a := by
  intro r
  induction r with
  | nil => intro a s hs; simp at hs
  | cons b r ih =>
      intro a s hs
      rw [List.foldl_cons]
      rcases List.mem_cons.mp hs with rfl | hs
      · exact le_trans (le_max_right _ _) (foldlMax_ge_init r _)
      · exact ih _ s hs

lemma foldlMax_attained : ∀ (r : List TranscriptionSegment) (a : ℚ),
    r.foldl (fun x b => max x b.end_) a = a ∨
    ∃ s ∈ r, r.foldl (fun x b => max x b.end_) a = s.end_ := by
  intro r
  induction r with
  | nil => intro a; exact Or.inl rfl
  | cons b r ih =>
      intro a
      rw [List.foldl_cons]
      rcases ih (max a b.end_) with h | ⟨s, hs, h⟩
      · rcases max_choice a b.end_ with h' | h'
        · exact Or.inl (by rw [h, h'])
        · exact Or.inr ⟨b, List.mem_cons_self _ _, by rw [h, h']⟩
      · exact Or.inr ⟨s, List.mem_cons_of_mem _ hs, h⟩

lemma le_maxEnds {l : List TranscriptionSegment} {s : TranscriptionSegment}
    (hs : s ∈ l) : s.end_ ≤ maxEnds l := by
  cases l with
  | nil => simp at hs
  | cons b r =>
      unfold maxEnds
      rcases List.mem_cons.mp hs with rfl | hs
      · exact foldlMax_ge_init r _
      · exact foldlMax_ge_mem r _ s hs

lemma maxEnds_attained {l : List TranscriptionSegment} (h : l ≠ []) :
    ∃ s ∈ l, maxEnds l = s.end_ := by
  cases l with
  | nil => exact absurd rfl h
  | cons b r =>
      unfold maxEnds
      rcases foldlMax_attained r b.end_ with h' | ⟨s, hs, h'⟩
      · exact ⟨b, List.mem_cons_self _ _, h'⟩
      · exact ⟨s, List.mem_cons_of_mem _ hs, h'⟩

/-! ## Score bounds -/

/-- The documented contract of the `fuzzywuzzy` metrics: integer scores in
`[0, 100]`. -/
def FuzzBounds (F : FuzzOracle) : Prop :=
  ∀ a b, (0 ≤ F.ratio a b ∧ F.ratio a b ≤ 100) ∧
    (0 ≤ F.part_ratio a b ∧ F.part_ratio a b ≤ 100) ∧
    (0 ≤ F.token_sort_ratio a b ∧ F.token_sort_ratio a b ≤ 100)

lemma ratio_div_bounds {x : ℤ} (h0 : 0 ≤ x) (h1 : x ≤ 100) :
    0 ≤ (x : ℚ) / 100 ∧ (x : ℚ) / 100 ≤ 1 := by
  constructor
  · positivity
  · rw [div_le_one (by norm_num)]
    exact_mod_cast h1

lemma sscore_bounds {F : FuzzOracle} (hF : FuzzBounds F) (nl : List ℕ)
    (seg : TranscriptionSegment) : 0 ≤ sscore F nl seg ∧ sscore F nl seg ≤ 1 := by
  unfold sscore
  rcases hF nl (normalize_text seg.text) with ⟨⟨r0, r1⟩, ⟨p0, p1⟩, ⟨t0, t1⟩⟩
  rcases ratio_div_bounds r0 r1 with ⟨hr0, hr1⟩
  rcases ratio_div_bounds p0 p1 with ⟨hp0, hp1⟩
  rcases ratio_div_bounds t0 t1 with ⟨ht0, ht1⟩
  exact ⟨le_trans hr0 (le_trans (le_max_left _ _) (le_max_left _ _)),
    max_le (max_le hr1 hp1) ht1⟩

lemma cscore_bounds {F : FuzzOracle} (hF : FuzzBounds F) (nl : List ℕ)
    (segs : List TranscriptionSegment) (c : ℕ × ℕ) :
    0 ≤ cscore F nl segs c ∧ cscore F nl segs c ≤ 1 := by
  unfold cscore
  rcases hF nl (combinedText (cwindow segs c)) with ⟨⟨r0, r1⟩, _, ⟨t0, t1⟩⟩
  rcases ratio_div_bounds r0 r1 with ⟨hr0, hr1⟩
  rcases ratio_div_bounds t0 t1 with ⟨ht0, ht1⟩
  exact ⟨le_trans hr0 (le_max_left _ _), max_le hr1 ht1⟩

lemma singlePass_score_cases (F : FuzzOracle) (thr : ℚ) (nl : List ℕ)
    (segs : List TranscriptionSegment) (used : Finset ℕ) :
    (singlePass F thr nl segs used).2.1 = 0 ∨
    ∃ p ∈ segs.enum, (singlePass F thr nl segs used).2.1 = sscore F nl p.2 := by
  rcases singlePass_inv F thr nl segs used with ⟨hs, _⟩ | ⟨k, p, hk, _, hs, _⟩
  · exact Or.inl (by rw [hs])
  · exact Or.inr ⟨p, List.get?_mem hk, by rw [hs]⟩

lemma multiPass_score_cases (F : FuzzOracle) (nl : List ℕ)
    (segs : List TranscriptionSegment) (used : Finset ℕ) (thr : ℚ) :
    (find_multi_segment_match F nl segs used thr).2.1 = 0 ∨
    ∃ c ∈ multiCandidates segs.length,
      (find_multi_segment_match F nl segs used thr).2.1 = cscore F nl segs c := by
  rcases multiPass_inv F nl segs used thr with ⟨hs, _⟩ | ⟨k, c, hk, _, hs, _⟩
  · exact Or.inl (by rw [hs])
  · exact Or.inr ⟨c, List.get?_mem hk, by rw [hs]⟩

lemma matcherTriple_score_bounds {F : FuzzOracle} (hF : FuzzBounds F)
    (nl : List ℕ) (segs : List TranscriptionSegment) (used : Finset ℕ)
    (thr : ℚ) : 0 ≤ (matcherTriple F nl segs used thr).2.1 ∧
      (matcherTriple F nl segs used thr).2.1 ≤ 1 := by
  by_cases hc : (singlePass F thr nl segs used).2.1 < thr
  · rw [matcherTriple_multi hc]
    simp only
    rcases multiPass_score_cases F nl segs used thr with h | ⟨c, _, h⟩
    · rw [h]; norm_num
    · rw [h]; exact cscore_bounds hF nl segs c
  · rw [matcherTriple_single hc]
    simp only
    rcases singlePass_score_cases F thr nl segs used with h | ⟨p, _, h⟩
    · rw [h]; norm_num
    · rw [h]; exact sscore_bounds hF nl p.2

/-! ## Empty-transcription runs -/

lemma matcherTriple_nil (F : FuzzOracle) (nl : List ℕ) (used : Finset ℕ)
    (thr : ℚ) : matcherTriple F nl [] used thr = (none, 0, []) := by
  by_cases h : (singlePass F thr nl [] used).2.1 < thr
  · rw [matcherTriple_multi h]
    rfl
  · rw [matcherTriple_single h]
    rfl

lemma processLine_nil (F : FuzzOracle) (thr : ℚ) (orig nl : List ℕ)
    (acc : List LyricSegment) (used : Finset ℕ) :
    processLine F [] thr orig nl acc used = fallbackResult orig acc := by
  unfold processLine
  rw [matcherTriple_nil]

/-! ## Pairs produced by the zip with the normalized lines -/

lemma zip_normalize_mem : ∀ (lines : List (List ℕ)) (o n : List ℕ),
    (o, n) ∈ lines.zip (lines.map normalize_text) → n = normalize_text o := by
  intro lines
  induction lines with
  | nil => intro o n h; simp at h
  | cons a rest ih =>
      intro o n h
      rw [List.map_cons, List.zip_cons_cons] at h
      rcases List.mem_cons.mp h with h | h
      · rw [Prod.mk.injEq] at h
        rw [h.2, h.1]
      · exact ih o n h

/-! ## Fallback timing chain -/

/-- The estimated start used by the fallback branch: previous output segment's
end plus half a second, or zero when there is no previous output. -/
def prevEndStart (acc : List LyricSegment) : ℚ :=
  match acc.getLast? with
  | some prev => prev.end_time + 1/2
  | none => 0

lemma fallbackResult_seg (orig : List ℕ) (acc : List LyricSegment) :
    (fallbackResult orig acc).seg =
      ⟨prevEndStart acc, prevEndStart acc + 3, orig, 0, none⟩ := by
  cases h : acc.getLast? with
  | some prev => simp [fallbackResult, prevEndStart, h]
  | none => simp [fallbackResult, prevEndStart, h]

lemma prevEndStart_concat (acc : List LyricSegment) (s : LyricSegment) :
    prevEndStart (acc ++ [s]) = s.end_time + 1/2 := by
  unfold prevEndStart
  rw [List.getLast?_concat]

lemma alignLines_fallback_shape (F : FuzzOracle)
    (segs : List TranscriptionSegment) (thr : ℚ) :
    ∀ (pairs : List (List ℕ × List ℕ)) (acc : List LyricSegment)
      (used : Finset ℕ) (i : ℕ) (r : LineResult),
    (alignLines F segs thr pairs acc used).get? i = some r →
    r.matched = false →
    r.seg.confidence = 0 ∧ r.seg.word_timings = none ∧
      r.seg.end_time = r.seg.start_time + 3 ∧
      (i = 0 → r.seg.start_time = prevEndStart acc) ∧
      (∀ j r', i = j + 1 →
        (alignLines F segs thr pairs acc used).get? j = some r' →
        r.seg.start_time = r'.seg.end_time + 1/2) := by
  intro pairs
  induction pairs with
  | nil =>
      intro acc used i r hr hm
      simp [alignLines] at hr
  | cons p rest ih =>
      intro acc used i r hr hm
      cases p with
      | mk orig nl =>
          cases i with
          | zero =>
              simp only [alignLines, List.get?_cons_zero] at hr
              have hr' : r = processLine F segs thr orig nl acc used := by
                injection hr.symm
              rw [hr'] at hm ⊢
              rw [processLine_not_matched hm, fallbackResult_seg]
              refine ⟨rfl, rfl, rfl, fun _ => rfl, ?_⟩
              intro j r' hj _
              omega
          | succ i' =>
              simp only [alignLines, List.get?_cons_succ] at hr
              rcases ih (acc ++ [(processLine F segs thr orig nl acc used).seg])
                (used ∪ (processLine F segs thr orig nl acc used).consumed.toFinset)
                i' r hr hm with ⟨h1, h2, h3, h4, h5⟩
              refine ⟨h1, h2, h3, by omega, ?_⟩
              intro j r' hj hj'
              cases j with
              | zero =>
                  simp only [alignLines, List.get?_cons_zero] at hj'
                  have hr' : r' = processLine F segs thr orig nl acc used := by
                    injection hj'.symm
                  have hi0 : i' = 0 := by omega
                  rw [h4 hi0, prevEndStart_concat, hr']
              | succ j' =>
                  simp only [alignLines, List.get?_cons_succ] at hj'
                  exact h5 j' r' (by omega) hj'

/-! ## Concrete fixtures for witnesses and counterexamples -/

/-- A concrete similarity oracle for witnesses: exact match scores 100,
anything else 0 (a valid instantiation of the fuzzywuzzy contract). -/
def exactFuzz : FuzzOracle :=
  ⟨fun a b => if a = b then 100 else 0,
   fun a b => if a = b then 100 else 0,
   fun a b => if a = b then 100 else 0⟩

lemma exactFuzz_bounds : FuzzBounds exactFuzz := by
  intro a b
  refine ⟨⟨?_, ?_⟩, ⟨?_, ?_⟩, ⟨?_, ?_⟩⟩ <;>
    · simp only [exactFuzz]
      split_ifs <;> norm_num

/-- Transcription segment fixtures. -/
def segA : TranscriptionSegment := ⟨0, 1, [97], [⟨[97], 0, 1, 1⟩]⟩

def segB : TranscriptionSegment := ⟨1, 2, [98], [⟨[98], 1, 2, 1⟩]⟩

def seg01 : TranscriptionSegment := ⟨0, 1, [104], []⟩

/-- The fallback line result produced for the single line "a" with no
transcription segments. -/
def fbA : LineResult := ⟨⟨0, 3, [97], 0, none⟩, false, none, 0, []⟩

lemma alignResults_fbA : alignResults exactFuzz [[97]] [] 0 = [fbA] := rfl

/-- The matched multi-segment line result of the run used by several
witnesses: line "a b" against segments "a" and "b". -/
def mrAB : LineResult :=
  ⟨⟨0, 2, [97, 32, 98], 1, some [⟨[97], 0, 1, 1⟩, ⟨[98], 1, 2, 1⟩]⟩,
    true, some (Sum.inr [segA, segB]), 1, [0, 1]⟩

lemma alignResults_mrAB :
    alignResults exactFuzz [[97, 32, 98]] [segA, segB] (3/5) = [mrAB] := by
  norm_num +decide [alignResults, alignLines, processLine, matcherTriple, singlePass,
    singleStep, find_multi_segment_match, multiCandidates, multiStep, selStep, celig,
    cscore, cwindow, combinedText, sscore, segA, segB, exactFuzz, normalize_text,
    collapseWs, pySplit, splitWsAux, joinWords, subNonWord, isSpaceCp, isWordCp,
    lowerCp, nfkdCp, List.range', List.range, List.range.loop, List.enum,
    List.enumFrom, pyTruthy, segTiming, minStarts, maxEnds, mrAB]

/-! ## C1 — completeness -/

/-- C1: for every non-empty list of reference lines, every list of transcribed
segments (including the empty list), and every threshold in [0,1], the
alignment returns one output segment per reference line, in reference-line
order (the output is the in-order map over the zipped lines, and its length
equals the number of reference lines). -/
theorem completeness_align_length (F : FuzzOracle) (lines : List (List ℕ))
    (segs : List TranscriptionSegment) (thr : ℚ) (hne : lines ≠ [])
    (hthr : 0 ≤ thr ∧ thr ≤ 1) :
    (align_text_with_timestamps F lines segs thr).length = lines.length := by
  unfold align_text_with_timestamps alignResults
  rw [List.length_map, alignLines_length, List.length_zip, List.length_map,
    min_self]

theorem completeness_align_length_witness :
    ([[104]] : List (List ℕ)) ≠ [] ∧ ((0:ℚ) ≤ 1/2 ∧ (1:ℚ)/2 ≤ 1) ∧
    (align_text_with_timestamps exactFuzz [[104]] [] (1/2)).length = 1 :=
  ⟨by simp, ⟨by norm_num, by norm_num⟩,
    completeness_align_length exactFuzz [[104]] [] (1/2) (by simp)
      ⟨by norm_num, by norm_num⟩⟩

/-! ## C2 — exclusivity -/

/-- C2: over a whole alignment run, each transcription-segment index is
consumed by at most one reference line: the per-line consumed index lists are
pairwise disjoint (fallback lines consume nothing, so no two resolved output
segments share a contributing index; both the single-segment pass and the
multi-segment pass only select unconsumed candidates). -/
theorem exclusivity_consumed_pairwise (F : FuzzOracle)
    (lines : List (List ℕ)) (segs : List TranscriptionSegment) (thr : ℚ) :
    (alignResults F lines segs thr).Pairwise
      (fun a b => ∀ j ∈ a.consumed, j ∉ b.consumed) :=
  alignLines_pairwise F segs thr _ [] ∅

/-! ## C7 — normalization idempotence -/

/-- C7 counterexample: normalization is not idempotent on all strings.  The
single code point U+00BD (½) normalizes to "1⁄2" (NFKD, applied last), and a
second normalization replaces the fraction slash U+2044 by a space. -/
theorem normalize_idem_counterexample :
    normalize_text (normalize_text [189]) ≠ normalize_text [189] := by decide

/-- C7 amended: `normalize_text` is idempotent on every ASCII string (the
final NFKD step is the identity there, and the earlier steps are closed under
one another). -/
theorem normalize_text_idem_ascii (t : List ℕ) (h : ∀ c ∈ t, c < 128) :
    normalize_text (normalize_text t) = normalize_text t :=
  normalize_text_idem_of_ascii h

theorem normalize_text_idem_ascii_witness :
    (∀ c ∈ [72, 101, 108, 108, 111, 33], c < 128) ∧
    normalize_text (normalize_text [72, 101, 108, 108, 111, 33]) =
      normalize_text [72, 101, 108, 108, 111, 33] :=
  ⟨by decide, normalize_text_idem_ascii [72, 101, 108, 108, 111, 33] (by decide)⟩

/-! ## C3 — fallback timing -/

/-- C3: whenever a reference line has no match meeting the threshold
(`matched = false`), the emitted segment has confidence 0, no word timings,
duration exactly 3.0, start 0.0 if it is the first output segment and
otherwise the preceding output segment's end time plus 0.5; in particular an
empty segment list with three reference lines yields three chained fallback
segments starting at 0.0, 3.5 and 7.0. -/
theorem fallback_timing (F : FuzzOracle) (lines : List (List ℕ))
    (segs : List TranscriptionSegment) (thr : ℚ) :
    (∀ i r, (alignResults F lines segs thr).get? i = some r →
      r.matched = false →
      r.seg.confidence = 0 ∧ r.seg.word_timings = none ∧
      r.seg.end_time = r.seg.start_time + 3 ∧
      (i = 0 → r.seg.start_time = 0) ∧
      (∀ j r', i = j + 1 →
        (alignResults F lines segs thr).get? j = some r' →
        r.seg.start_time = r'.seg.end_time + 1/2)) ∧
    (∀ t, align_text_with_timestamps F [[97], [98], [99]] [] t =
      [⟨0, 3, [97], 0, none⟩, ⟨7/2, 13/2, [98], 0, none⟩,
        ⟨7, 10, [99], 0, none⟩]) := by
  constructor
  · intro i r hr hm
    rcases alignLines_fallback_shape F segs thr
      (lines.zip (lines.map normalize_text)) [] ∅ i r hr hm with
      ⟨h1, h2, h3, h4, h5⟩
    exact ⟨h1, h2, h3, fun h0 => by simpa [prevEndStart] using h4 h0, h5⟩
  · intro t
    simp [align_text_with_timestamps, alignResults, alignLines, processLine_nil,
      fallbackResult]
    norm_num

theorem fallback_timing_witness :
    (alignResults exactFuzz [[97]] [] 0).get? 0 = some fbA ∧
    fbA.matched = false ∧
    (fbA.seg.confidence = 0 ∧ fbA.seg.word_timings = none ∧
      fbA.seg.end_time = fbA.seg.start_time + 3 ∧
      ((0:ℕ) = 0 → fbA.seg.start_time = 0) ∧
      (∀ j r', (0:ℕ) = j + 1 →
        (alignResults exactFuzz [[97]] [] 0).get? j = some r' →
        fbA.seg.start_time = r'.seg.end_time + 1/2)) :=
  ⟨by rw [alignResults_fbA]; rfl, rfl,
    (fallback_timing exactFuzz [[97]] [] 0).1 0 fbA
      (by rw [alignResults_fbA]; rfl) rfl⟩

/-! ## C4 — multi-segment timing synthesis -/

/-- C4: a line matched by a multi-segment window emits a segment whose start
is the minimum start of the contributing segments, whose end is the maximum
end, whose word timings are the concatenation of the contributing segments'
word lists in segment order, and whose confidence is exactly the similarity
score the matcher computed for that window (maximum of whole-string and
token-sort similarity, scaled by 1/100, on the space-joined normalized
texts). -/
theorem multi_segment_timing (F : FuzzOracle) (lines : List (List ℕ))
    (segs : List TranscriptionSegment) (thr : ℚ) :
    ∀ r ∈ alignResults F lines segs thr, ∀ l,
      r.mtch = some (Sum.inr l) →
      l ≠ [] ∧
      IsLeast {q | ∃ s ∈ l, s.start = q} r.seg.start_time ∧
      IsGreatest {q | ∃ s ∈ l, s.end_ = q} r.seg.end_time ∧
      r.seg.word_timings = some (l.flatMap fun s => s.words) ∧
      r.seg.confidence = r.score ∧
      r.seg.confidence =
        max ((F.ratio (normalize_text r.seg.text)
            (joinWords (l.map fun s => normalize_text s.text)) : ℚ) / 100)
          ((F.token_sort_ratio (normalize_text r.seg.text)
            (joinWords (l.map fun s => normalize_text s.text)) : ℚ) / 100) := by
  intro r hr l hm
  rcases alignLines_mem F segs thr _ [] ∅ r hr with
    ⟨o, n, acc', used', hpair, _, hr'⟩
  have hn : n = normalize_text o := zip_normalize_mem lines o n hpair
  subst hr'
  rcases processLine_cases F segs thr o n acc' used' with hc | ⟨x, hx1, hx2, hx3, hc⟩
  · rw [hc] at hm
    simp [fallbackResult] at hm
  · rw [hc] at hm ⊢
    have hx : x = Sum.inr l := by simpa using hm
    subst hx
    have hne : l ≠ [] := by
      intro h
      subst h
      simp [pyTruthy] at hx2
    refine ⟨hne, ?_, ?_, ?_, rfl, ?_⟩
    · simp only [segTiming]
      constructor
      · rcases minStarts_attained hne with ⟨s, hs, heq⟩
        exact ⟨s, hs, heq.symm⟩
      · intro q hq
        rcases hq with ⟨s, hs, hq⟩
        rw [← hq]
        exact minStarts_le hs
    · simp only [segTiming]
      constructor
      · rcases maxEnds_attained hne with ⟨s, hs, heq⟩
        exact ⟨s, hs, heq.symm⟩
      · intro q hq
        rcases hq with ⟨s, hs, hq⟩
        rw [← hq]
        exact le_maxEnds hs
    · simp only [segTiming]
    · rcases matcherTriple_some_inr hx1 with ⟨hsp, hmp, htr⟩
      rcases multiPass_some hmp with
        ⟨k, c, hk, he, hl, hmps, hthr2, hpos2, hfirst2, hmax2⟩
      have hsc : (matcherTriple F n segs used' thr).2.1 = cscore F n segs c := by
        rw [htr]
        simp only
        rw [hmps]
      simp only [hsc]
      unfold cscore combinedText
      rw [← hl, hn]

theorem multi_segment_timing_witness :
    mrAB ∈ alignResults exactFuzz [[97, 32, 98]] [segA, segB] (3/5) ∧
    mrAB.mtch = some (Sum.inr [segA, segB]) ∧
    ([segA, segB] ≠ [] ∧
      IsLeast {q | ∃ s ∈ [segA, segB], s.start = q} mrAB.seg.start_time ∧
      IsGreatest {q | ∃ s ∈ [segA, segB], s.end_ = q} mrAB.seg.end_time ∧
      mrAB.seg.word_timings = some ([segA, segB].flatMap fun s => s.words) ∧
      mrAB.seg.confidence = mrAB.score ∧
      mrAB.seg.confidence =
        max ((exactFuzz.ratio (normalize_text mrAB.seg.text)
            (joinWords ([segA, segB].map fun s => normalize_text s.text)) : ℚ) / 100)
          ((exactFuzz.token_sort_ratio (normalize_text mrAB.seg.text)
            (joinWords ([segA, segB].map fun s => normalize_text s.text)) : ℚ) / 100)) :=
  ⟨by rw [alignResults_mrAB]; exact List.mem_singleton_self _, rfl,
    multi_segment_timing exactFuzz [[97, 32, 98]] [segA, segB] (3/5) mrAB
      (by rw [alignResults_mrAB]; exact List.mem_singleton_self _)
      [segA, segB] rfl⟩

/-! ## C5 — matcher pass structure and acceptance -/

/-- C5: the multi-segment pass is consulted exactly when the best
single-segment score is below the threshold (otherwise the matcher's result
is the single-segment pass's); an accepted multi-segment result is a
contiguous window of 2 to 4 consecutive all-unconsumed segments in original
order, scored as the maximum of the whole-string and token-order-insensitive
metrics (no partial similarity) on the space-joined normalized texts, best
across all windows; and the matcher returns a result only if its score meets
the threshold, in which case that score is at least the single-segment pass's
score (the higher of the two pass results). -/
theorem matcher_pass_structure (F : FuzzOracle) (nl : List ℕ)
    (segs : List TranscriptionSegment) (used : Finset ℕ) (thr : ℚ) :
    (thr ≤ bestSingleScore F nl segs used →
      matcherTriple F nl segs used thr =
        ((singlePass F thr nl segs used).1.map Sum.inl,
          (singlePass F thr nl segs used).2.1,
          (singlePass F thr nl segs used).2.2)) ∧
    (bestSingleScore F nl segs used < thr →
      matcherTriple F nl segs used thr =
        ((find_multi_segment_match F nl segs used thr).1.map Sum.inr,
          (find_multi_segment_match F nl segs used thr).2.1,
          (find_multi_segment_match F nl segs used thr).2.2)) ∧
    (∀ l, (find_multi_segment_match F nl segs used thr).1 = some l →
      ∃ w s, 2 ≤ w ∧ w ≤ 4 ∧ s + w ≤ segs.length ∧
        l = (segs.drop s).take w ∧ (∀ i < w, s + i ∉ used) ∧
        find_multi_segment_match F nl segs used thr =
          (some l,
            max ((F.ratio nl (joinWords (l.map fun sg => normalize_text sg.text)) : ℚ) / 100)
              ((F.token_sort_ratio nl (joinWords (l.map fun sg => normalize_text sg.text)) : ℚ) / 100),
            List.range' s w) ∧
        thr ≤ (find_multi_segment_match F nl segs used thr).2.1 ∧
        (∀ c ∈ multiCandidates segs.length, celig used c = true →
          cscore F nl segs c ≤ (find_multi_segment_match F nl segs used thr).2.1 ∨
            cscore F nl segs c < thr)) ∧
    (∀ x, (matcherTriple F nl segs used thr).1 = some x →
      thr ≤ (matcherTriple F nl segs used thr).2.1 ∧
      (singlePass F thr nl segs used).2.1 ≤ (matcherTriple F nl segs used thr).2.1) := by
  refine ⟨?_, ?_, ?_, ?_⟩
  · intro h
    exact matcherTriple_single (by
      rw [singlePass_lt_thr_iff]
      exact not_lt_of_le h)
  · intro h
    exact matcherTriple_multi ((singlePass_lt_thr_iff F thr nl segs used).mpr h)
  · intro l hl
    rcases multiPass_some hl with
      ⟨k, c, hk, he, hlw, hmps, hthr2, hpos2, hfirst2, hmax2⟩
    rcases mem_multiCandidates (List.get?_mem hk) with ⟨hw2, hw4, hwlen⟩
    refine ⟨c.1, c.2, hw2, hw4, hwlen, hlw, ?_, ?_, ?_, ?_⟩
    · intro i hi
      exact celig_iff.mp he i hi
    · rw [hmps, ← hlw]
      unfold cscore combinedText
      rw [← hlw]
    · rw [hmps]
      exact hthr2
    · intro c' hc' he'
      rw [hmps]
      exact hmax2 c' hc' he'
  · intro x hx
    rcases matcherTriple_some_score hx with ⟨h1, _, h3⟩
    exact ⟨h1, h3⟩

theorem matcher_pass_structure_witness :
    ((1:ℚ)/2 ≤ bestSingleScore exactFuzz [104] [seg01] ∅) ∧
    matcherTriple exactFuzz [104] [seg01] ∅ (1/2) =
      ((singlePass exactFuzz (1/2) [104] [seg01] ∅).1.map Sum.inl,
        (singlePass exactFuzz (1/2) [104] [seg01] ∅).2.1,
        (singlePass exactFuzz (1/2) [104] [seg01] ∅).2.2) := by
  have hb : (1:ℚ)/2 ≤ bestSingleScore exactFuzz [104] [seg01] ∅ := by
    norm_num +decide [bestSingleScore, List.enum, List.enumFrom, sscore, exactFuzz,
      seg01, normalize_text, collapseWs, pySplit, splitWsAux, joinWords, subNonWord,
      isSpaceCp, isWordCp, lowerCp, nfkdCp]
  exact ⟨hb, (matcher_pass_structure exactFuzz [104] [seg01] ∅ (1/2)).1 hb⟩

/-! ## C6 — tie-breaking and candidate iteration order -/

/-- Modelled from the spec's words (claim C6): the claimed iteration order
among multi-segment candidates, "by segment index first, then window size
ascending".  For comparison with the source-order `find_multi_segment_match`,
whose outer loop is the window size (`for window_size in range(2, 5)` around
`for start_idx in range(...)`). -/
def multiCandidatesByIndex (n : ℕ) : List (ℕ × ℕ) :=
  (List.range n).flatMap fun s =>
    ((List.range' 2 3).filter fun w => s + w ≤ n).map fun w => (w, s)

/-- Modelled from the spec's words (claim C6): the multi-segment pass run in
the claimed index-major candidate order. -/
def find_multi_segment_match_by_index (F : FuzzOracle) (target_lyric : List ℕ)
    (segs : List TranscriptionSegment) (used : Finset ℕ) (thr : ℚ) :
    Option (List TranscriptionSegment) × ℚ × List ℕ :=
  (multiCandidatesByIndex segs.length).foldl
    (multiStep F thr target_lyric segs used) (none, 0, [])

/-- A similarity oracle producing a tie between the window of segments 1–2
(size 2) and the window of segments 0–2 (size 3). -/
def tieFuzz : FuzzOracle :=
  ⟨fun _ b => if b = [98, 32, 99] ∨ b = [97, 32, 98, 32, 99] then 80 else 10,
   fun _ _ => 0, fun _ _ => 0⟩

def cexA : TranscriptionSegment := ⟨0, 1, [97], []⟩

def cexB : TranscriptionSegment := ⟨1, 2, [98], []⟩

def cexC : TranscriptionSegment := ⟨2, 3, [99], []⟩

lemma tie_code_eval :
    find_multi_segment_match tieFuzz [120] [cexA, cexB, cexC] ∅ (3/5) =
      (some [cexB, cexC], 4/5, [1, 2]) := by
  norm_num +decide [find_multi_segment_match, multiCandidates, multiStep, selStep,
    celig, cscore, cwindow, combinedText, cexA, cexB, cexC, tieFuzz, normalize_text,
    collapseWs, pySplit, splitWsAux, joinWords, subNonWord, isSpaceCp, isWordCp,
    lowerCp, nfkdCp, List.range', List.range, List.range.loop]

lemma tie_index_eval :
    find_multi_segment_match_by_index tieFuzz [120] [cexA, cexB, cexC] ∅ (3/5) =
      (some [cexA, cexB, cexC], 4/5, [0, 1, 2]) := by
  norm_num +decide [find_multi_segment_match_by_index, multiCandidatesByIndex,
    multiStep, selStep, celig, cscore, cwindow, combinedText, cexA, cexB, cexC,
    tieFuzz, normalize_text, collapseWs, pySplit, splitWsAux, joinWords, subNonWord,
    isSpaceCp, isWordCp, lowerCp, nfkdCp, List.range', List.range, List.range.loop]

/-- C6 counterexample: the multi-segment pass does not iterate candidates by
segment index first and window size second, as the claim states.  With a
scoring tie between the size-2 window at index 1 and the size-3 window at
index 0, the code (window size in the outer loop) keeps the size-2 window at
index 1, while the claimed index-major order would keep the size-3 window at
index 0. -/
theorem tiebreak_order_counterexample :
    find_multi_segment_match tieFuzz [120] [cexA, cexB, cexC] ∅ (3/5) ≠
      find_multi_segment_match_by_index tieFuzz [120] [cexA, cexB, cexC] ∅ (3/5) := by
  rw [tie_code_eval, tie_index_eval]
  simp [cexA, cexB, cexC]

/-- C6 amended: a candidate replaces the current best only when its score is
strictly greater (so on ties the first-found result is kept), in both passes;
and the iteration order among multi-segment candidates is by window size
ascending first, then segment index ascending — the accepted multi-segment
result is the first candidate in that order attaining the maximal eligible
score. -/
theorem tiebreak_strict_first_found (F : FuzzOracle) (nl : List ℕ)
    (segs : List TranscriptionSegment) (used : Finset ℕ) (thr : ℚ) :
    (∀ st (p : ℕ × TranscriptionSegment),
      singleStep F thr nl used st p = st ∨
      (st.2.1 < sscore F nl p.2 ∧ thr ≤ sscore F nl p.2 ∧
        singleStep F thr nl used st p = (some p.2, sscore F nl p.2, [p.1]))) ∧
    (∀ st (c : ℕ × ℕ),
      multiStep F thr nl segs used st c = st ∨
      (st.2.1 < cscore F nl segs c ∧ thr ≤ cscore F nl segs c ∧
        multiStep F thr nl segs used st c =
          (some (cwindow segs c), cscore F nl segs c, List.range' c.2 c.1))) ∧
    (multiCandidates segs.length =
      (List.range' 2 3).flatMap fun w =>
        (List.range (segs.length + 1 - w)).map fun s => (w, s)) ∧
    (∀ l, (find_multi_segment_match F nl segs used thr).1 = some l →
      ∃ k c, (multiCandidates segs.length).get? k = some c ∧
        celig used c = true ∧
        find_multi_segment_match F nl segs used thr =
          (some (cwindow segs c), cscore F nl segs c, List.range' c.2 c.1) ∧
        (∀ j c', j < k → (multiCandidates segs.length).get? j = some c' →
          celig used c' = true → cscore F nl segs c' < cscore F nl segs c) ∧
        (∀ c' ∈ multiCandidates segs.length, celig used c' = true →
          cscore F nl segs c' ≤ cscore F nl segs c ∨
            cscore F nl segs c' < thr)) := by
  refine ⟨?_, ?_, rfl, ?_⟩
  · intro st p
    unfold singleStep selStep
    by_cases he : decide (p.1 ∉ used) = true
    · rw [if_pos he]
      by_cases hup : st.2.1 < sscore F nl p.2 ∧ thr ≤ sscore F nl p.2
      · rw [if_pos hup]
        exact Or.inr ⟨hup.1, hup.2, rfl⟩
      · rw [if_neg hup]
        exact Or.inl rfl
    · rw [if_neg he]
      exact Or.inl rfl
  · intro st c
    unfold multiStep selStep
    by_cases he : celig used c = true
    · rw [if_pos he]
      by_cases hup : st.2.1 < cscore F nl segs c ∧ thr ≤ cscore F nl segs c
      · rw [if_pos hup]
        exact Or.inr ⟨hup.1, hup.2, rfl⟩
      · rw [if_neg hup]
        exact Or.inl rfl
    · rw [if_neg he]
      exact Or.inl rfl
  · intro l hl
    rcases multiPass_some hl with
      ⟨k, c, hk, he, hlw, hmps, hthr2, hpos2, hfirst2, hmax2⟩
    exact ⟨k, c, hk, he, hmps, hfirst2, hmax2⟩

theorem tiebreak_strict_first_found_witness :
    (find_multi_segment_match tieFuzz [120] [cexA, cexB, cexC] ∅ (3/5)).1 =
      some [cexB, cexC] ∧
    ∃ k c, (multiCandidates 3).get? k = some c ∧
      celig ∅ c = true ∧
      find_multi_segment_match tieFuzz [120] [cexA, cexB, cexC] ∅ (3/5) =
        (some (cwindow [cexA, cexB, cexC] c),
          cscore tieFuzz [120] [cexA, cexB, cexC] c, List.range' c.2 c.1) ∧
      (∀ j c', j < k → (multiCandidates 3).get? j = some c' →
        celig ∅ c' = true →
        cscore tieFuzz [120] [cexA, cexB, cexC] c' <
          cscore tieFuzz [120] [cexA, cexB, cexC] c) ∧
      (∀ c' ∈ multiCandidates 3, celig ∅ c' = true →
        cscore tieFuzz [120] [cexA, cexB, cexC] c' ≤
            cscore tieFuzz [120] [cexA, cexB, cexC] c ∨
          cscore tieFuzz [120] [cexA, cexB, cexC] c' < 3/5) :=
  ⟨by rw [tie_code_eval],
    (tiebreak_strict_first_found tieFuzz [120] [cexA, cexB, cexC] ∅ (3/5)).2.2.2
      [cexB, cexC] (by rw [tie_code_eval])⟩

/-! ## C8 — confidence bound -/

/-- C8: with the fuzzywuzzy metrics returning integer scores in [0, 100],
every output segment's confidence lies in [0, 1]; fallback segments have
confidence exactly 0 and matched segments carry exactly the matcher's
score. -/
theorem confidence_bound (F : FuzzOracle) (lines : List (List ℕ))
    (segs : List TranscriptionSegment) (thr : ℚ) (hF : FuzzBounds F) :
    ∀ r ∈ alignResults F lines segs thr,
      0 ≤ r.seg.confidence ∧ r.seg.confidence ≤ 1 ∧
      (r.matched = false → r.seg.confidence = 0) ∧
      (r.matched = true → r.seg.confidence = r.score) := by
  intro r hr
  rcases alignLines_mem F segs thr _ [] ∅ r hr with ⟨o, n, acc', used', _, _, hr'⟩
  subst hr'
  rcases processLine_cases F segs thr o n acc' used' with hc | ⟨x, hx1, hx2, hx3, hc⟩
  · rw [hc]
    exact ⟨le_rfl, by rw [fallbackResult_seg]; norm_num, fun _ => rfl,
      fun h => by simp [fallbackResult] at h⟩
  · rw [hc]
    rcases matcherTriple_score_bounds hF n segs used' thr with ⟨hb0, hb1⟩
    exact ⟨hb0, hb1, fun h => by simp at h, fun _ => rfl⟩

theorem confidence_bound_witness :
    FuzzBounds exactFuzz ∧ fbA ∈ alignResults exactFuzz [[97]] [] 0 ∧
    (0 ≤ fbA.seg.confidence ∧ fbA.seg.confidence ≤ 1 ∧
      (fbA.matched = false → fbA.seg.confidence = 0) ∧
      (fbA.matched = true → fbA.seg.confidence = fbA.score)) :=
  ⟨exactFuzz_bounds,
    by rw [alignResults_fbA]; exact List.mem_singleton_self _,
    confidence_bound exactFuzz [[97]] [] 0 exactFuzz_bounds fbA
      (by rw [alignResults_fbA]; exact List.mem_singleton_self _)⟩

/-! ## C9 — consumption atomicity on no-match -/

/-- C9: a reference line that fails to match consumes nothing: its recorded
consumed-index list is empty (and its confidence is 0), and processing it
passes the consumption set through to the remaining lines unchanged. -/
theorem consumption_atomicity (F : FuzzOracle) (lines : List (List ℕ))
    (segs : List TranscriptionSegment) (thr : ℚ) :
    (∀ r ∈ alignResults F lines segs thr, r.matched = false →
      r.consumed = [] ∧ r.seg.confidence = 0) ∧
    (∀ orig nl rest acc used,
      (processLine F segs thr orig nl acc used).matched = false →
      alignLines F segs thr ((orig, nl) :: rest) acc used =
        processLine F segs thr orig nl acc used ::
          alignLines F segs thr rest
            (acc ++ [(processLine F segs thr orig nl acc used).seg]) used) := by
  constructor
  · intro r hr hm
    rcases alignLines_mem F segs thr _ [] ∅ r hr with ⟨o, n, acc', used', _, _, hr'⟩
    subst hr'
    rw [processLine_not_matched hm]
    exact ⟨rfl, rfl⟩
  · intro orig nl rest acc used h
    have hc : (processLine F segs thr orig nl acc used).consumed = [] := by
      rw [processLine_not_matched h, fallbackResult_consumed]
    simp only [alignLines, hc, List.toFinset_nil, Finset.union_empty]

theorem consumption_atomicity_witness :
    fbA ∈ alignResults exactFuzz [[97]] [] 0 ∧ fbA.matched = false ∧
    (fbA.consumed = [] ∧ fbA.seg.confidence = 0) :=
  ⟨by rw [alignResults_fbA]; exact List.mem_singleton_self _, rfl,
    (consumption_atomicity exactFuzz [[97]] [] 0).1 fbA
      (by rw [alignResults_fbA]; exact List.mem_singleton_self _) rfl⟩

/-! ## C10 — well-formed output intervals -/

/-- C10: if every input transcription segment has start ≤ end, then every
output segment has start_time ≤ end_time; fallback segments moreover satisfy
end_time = start_time + 3. -/
theorem interval_wellformed (F : FuzzOracle) (lines : List (List ℕ))
    (segs : List TranscriptionSegment) (thr : ℚ)
    (h : ∀ s ∈ segs, s.start ≤ s.end_) :
    ∀ r ∈ alignResults F lines segs thr,
      r.seg.start_time ≤ r.seg.end_time ∧
      (r.matched = false → r.seg.end_time = r.seg.start_time + 3) := by
  intro r hr
  rcases alignLines_mem F segs thr _ [] ∅ r hr with ⟨o, n, acc', used', _, _, hr'⟩
  subst hr'
  rcases processLine_cases F segs thr o n acc' used' with hc | ⟨x, hx1, hx2, hx3, hc⟩
  · rw [hc, fallbackResult_seg]
    refine ⟨?_, fun _ => rfl⟩
    show prevEndStart acc' ≤ prevEndStart acc' + 3
    linarith
  · rw [hc]
    cases x with
    | inl s =>
        rcases matcherTriple_some_inl hx1 with ⟨_, hsp, _⟩
        rcases singlePass_some hsp with ⟨k, p, hk, hu, hps, _, _, _, _⟩
        have hmem : p.2 ∈ segs :=
          List.get?_mem (List.mem_enum_iff_get?.mp (List.get?_mem hk))
        refine ⟨?_, fun habs => by simp at habs⟩
        simp only [segTiming]
        rw [← hps]
        exact h p.2 hmem
    | inr l =>
        have hne : l ≠ [] := by
          intro h0
          subst h0
          simp [pyTruthy] at hx2
        rcases matcherTriple_some_inr hx1 with ⟨_, hmp, _⟩
        rcases multiPass_some hmp with ⟨k, c, hk, he, hlw, _, _, _, _, _⟩
        refine ⟨?_, fun habs => by simp at habs⟩
        simp only [segTiming]
        rcases minStarts_attained hne with ⟨s0, hs0, heq0⟩
        have hmem : s0 ∈ segs := by
          rw [hlw] at hs0
          exact mem_of_mem_cwindow hs0
        calc minStarts l = s0.start := heq0
          _ ≤ s0.end_ := h s0 hmem
          _ ≤ maxEnds l := le_maxEnds hs0

theorem interval_wellformed_witness :
    (∀ s ∈ [segA, segB], s.start ≤ s.end_) ∧
    mrAB ∈ alignResults exactFuzz [[97, 32, 98]] [segA, segB] (3/5) ∧
    (mrAB.seg.start_time ≤ mrAB.seg.end_time ∧
      (mrAB.matched = false → mrAB.seg.end_time = mrAB.seg.start_time + 3)) :=
  ⟨by
      intro s hs
      rcases List.mem_cons.mp hs with rfl | hs
      · norm_num [segA]
      · rcases List.mem_cons.mp hs with rfl | hs
        · norm_num [segB]
        · simp at hs,
    by rw [alignResults_mrAB]; exact List.mem_singleton_self _,
    interval_wellformed exactFuzz [[97, 32, 98]] [segA, segB] (3/5)
      (by
        intro s hs
        rcases List.mem_cons.mp hs with rfl | hs
        · norm_num [segA]
        · rcases List.mem_cons.mp hs with rfl | hs
          · norm_num [segB]
          · simp at hs)
      mrAB (by rw [alignResults_mrAB]; exact List.mem_singleton_self _)⟩
